import Mathlib

/-! HTTP digest authentication (`digest_auth.go`).

A shallow embedding of `digest_auth.go` and a verification of its validation logic.

Modelling conventions.

* Go strings are Lean `String`s.  The code only concatenates strings, compares them
  for equality, uses them as map keys and scans `nc` byte by byte; a character
  outside ASCII is encoded by bytes `>= 0x80`, which `ParseUint` treats like any
  other non-digit.
* A Go `map[string]V` is a function `String → Option V` (`none`: key absent).
  `map[string](*NonceInfo)` maps to the record itself: every pointer stored in the
  map is allocated by `addNonce` and stored under one key only, so there is no
  aliasing between entries.
* `time.Time` values are integers (nanoseconds); every call of `time.Now()` is an
  explicit argument.
* `fmt.Sprintf("%x", md5.Sum([]byte(s)))` is the parameter `md5hex`; the draws of
  the global `math/rand` generator are a stream `rnd : Nat → Nat`.
* `uint64` values are naturals, reduced modulo `2^64` where the code can overflow.
* The `io.Reader` given to `newDigestAuth` is the text it yields; `newDigestAuth` takes
  the result of `csvReader.ReadAll()`, and `csvReadAll` is the reader of `encoding/csv`
  with the settings of `newDigestAuth`.
* Loops that the source bounds by the data only (`newNonce`, the csv reader) take a
  fuel argument.
-/

namespace DigestAuthModel

/-! ## Maps -/

/-- A Go `map[string]V`. -/
abbrev GoMap (V : Type) : Type := String → Option V

/-- The result of `make(map[string]V)`. -/
def GoMap.empty {V : Type} : GoMap V := fun _ => none

/-- The statement `m[k] = v`. -/
def GoMap.set {V : Type} (m : GoMap V) (k : String) (v : V) : GoMap V :=
  fun k' => if k' = k then some v else m k'

/-! ## Data model -/

/-- Time in nanoseconds. -/
abbrev Time : Type := Int

/-- The constant `chars`. -/
def chars : String := "ABCDEFGHIJKLMNOPQRSTUVWXYZabcdefghijklmnopqrstuvwxyz0123456789"

/-- The constant `time.Hour`, in nanoseconds. -/
def hour : Int := 3600 * 1000000000

/-- The constant `maxNonceInactiveInterval`. -/
def maxNonceInactiveInterval : Int := 12 * hour

/-- The struct `NonceInfo`. -/
structure NonceInfo where
  issued : Time
  lastUsed : Time
  lastNonceCounter : Nat

/-- The struct `DigestAuth`. -/
structure DigestAuth where
  users : GoMap String
  nonces : GoMap NonceInfo

/-- The struct `DigestAuthData`. -/
structure DigestAuthData where
  user : String
  realm : String
  nonce : String
  method : String
  uri : String
  response : String
  qop : String
  nc : String
  cnonce : String

/-! ## `strconv.ParseUint` -/

/-- The errors `strconv.ErrSyntax` and `strconv.ErrRange`. -/
inductive NumError where
  | ErrSyntax
  | ErrRange
  deriving DecidableEq, Repr

/-- The constant `maxUint64`. -/
def maxUint64 : Nat := 2 ^ 64 - 1

/-- The digit switch of `ParseUint` on one byte `d`:
`'0'..'9'` gives `d - '0'`, `'a'..'z'` gives `d - 'a' + 10`, `'A'..'Z'` gives
`d - 'A' + 10`, anything else is a syntax error. -/
def digitVal (d : Nat) : Option Nat :=
  if '0'.toNat ≤ d ∧ d ≤ '9'.toNat then some (d - '0'.toNat)
  else if 'a'.toNat ≤ d ∧ d ≤ 'z'.toNat then some (d - 'a'.toNat + 10)
  else if 'A'.toNat ≤ d ∧ d ≤ 'Z'.toNat then some (d - 'A'.toNat + 10)
  else none

/-- The loop of `ParseUint` over the bytes of `s`, with accumulator `n`. -/
def parseUintLoop (base cutoff maxVal : Nat) : List Char → Nat → Except NumError Nat
  | [], n => .ok n
  | c :: cs, n =>
    match digitVal c.toNat with
    | none => .error .ErrSyntax
    | some v =>
      if v ≥ base then .error .ErrSyntax
      else if n ≥ cutoff then .error .ErrRange
      else
        let n0 := (n * base) % 2 ^ 64
        let n1 := (n0 + v) % 2 ^ 64
        if n1 < n0 ∨ n1 > maxVal then .error .ErrRange
        else parseUintLoop base cutoff maxVal cs n1

/-- The function `strconv.ParseUint(s, base, bitSize)` of the Go standard library, for
an explicit base `2 ≤ base ≤ 36` and `1 ≤ bitSize ≤ 64`
(`validate` calls it with base 16 and bit size 64).  Other arguments are reported as
a syntax error here; the prefix detection of base 0 is not modelled. -/
def ParseUint (s : String) (base bitSize : Nat) : Except NumError Nat :=
  if s = "" then .error .ErrSyntax
  else if ¬ (2 ≤ base ∧ base ≤ 36) then .error .ErrSyntax
  else if ¬ (1 ≤ bitSize ∧ bitSize ≤ 64) then .error .ErrSyntax
  else
    let cutoff := maxUint64 / base + 1
    let maxVal := 2 ^ bitSize - 1
    parseUintLoop base cutoff maxVal s.data 0

/-! ## The validator -/

/-- The method `DigestAuth.validate`.  `now` is the value of `time.Now()` read on the
accepting path.  Returns the boolean result and the state after the call. -/
def validate (md5hex : String → String) (now : Time) (h : DigestAuth)
    (data : DigestAuthData) : Bool × DigestAuth :=
  let lookupKey := data.user ++ ":" ++ data.realm
  match h.users lookupKey with
  | none => (false, h)
  | some ha1 =>
    match h.nonces data.nonce with
    | none => (false, h)
    | some nonceInfo =>
      match ParseUint data.nc 16 64 with
      | .error _ => (false, h)
      | .ok nc =>
        if nc = nonceInfo.lastNonceCounter then (false, h)
        else
          let s := data.method ++ ":" ++ data.uri
          let ha2 := md5hex s
          let s := ha1 ++ ":" ++ data.nonce ++ ":" ++ data.nc ++ ":" ++ data.cnonce ++ ":"
            ++ data.qop ++ ":" ++ ha2
          let realResponse := md5hex s
          if data.response = realResponse then
            let nonceInfo' : NonceInfo := { nonceInfo with lastUsed := now, lastNonceCounter := nc }
            (true, { h with nonces := h.nonces.set data.nonce nonceInfo' })
          else (false, h)

/-! ## The nonce registry -/

/-- The call `rand.Intn(n)`, given the next draw of the generator. -/
def Intn (draw n : Nat) : Nat := draw % n

/-- The function `makeRandomString(l)`: `l` characters of `chars`, chosen by the draws
`rnd 0, ..., rnd (l - 1)`. -/
def makeRandomString (rnd : Nat → Nat) (l : Nat) : String :=
  String.mk ((List.range l).map fun i => chars.data.getD (Intn (rnd i) chars.length) 'A')

/-- The method `DigestAuth.addNonce`; `t1` and `t2` are its two readings of
`time.Now()`. -/
def addNonce (t1 t2 : Time) (h : DigestAuth) (nonce : String) : DigestAuth :=
  let info : NonceInfo := { issued := t1, lastUsed := t2, lastNonceCounter := 0 }
  { h with nonces := h.nonces.set nonce info }

/-- The method `DigestAuth.newNonce`.  The loop runs at most `fuel` times (`none`: no
unused token found within `fuel` rounds); each round consumes 100 draws. -/
def newNonce (md5hex : String → String) (t1 t2 : Time) :
    Nat → (Nat → Nat) → DigestAuth → Option (String × DigestAuth)
  | 0, _, _ => none
  | fuel + 1, rnd, h =>
    let rs := makeRandomString rnd 100
    let nonce := md5hex rs
    match h.nonces nonce with
    | none => some (nonce, addNonce t1 t2 h nonce)
    | some _ => newNonce md5hex t1 t2 fuel (fun i => rnd (i + 100)) h

/-- The method `DigestAuth.expireNonces`; `currentTime` is its reading of `time.Now()`.
The `range` loop visits every entry of the map once and deletes it when its `lastUsed`
is before `limit`; the test on one entry does not depend on the other entries, so the
resulting map is given key by key. -/
def expireNonces (currentTime : Time) (h : DigestAuth) : DigestAuth :=
  let limit := currentTime + (-maxNonceInactiveInterval)
  { h with nonces := fun key =>
      match h.nonces key with
      | none => none
      | some value => if value.lastUsed < limit then none else some value }

/-- The statement `delete(m, k)`. -/
def GoMap.delete {V : Type} (m : GoMap V) (k : String) : GoMap V :=
  fun k' => if k' = k then none else m k'

/-- The `range` loop of `expireNonces`, run over the keys in the order `keys` in which the
map yields them: an entry still present with `lastUsed` before `limit` is deleted; a key
whose entry is gone is not visited. -/
def expireLoop (limit : Time) : List String → GoMap NonceInfo → GoMap NonceInfo
  | [], m => m
  | key :: rest, m =>
    match m key with
    | none => expireLoop limit rest m
    | some value =>
      if value.lastUsed < limit then expireLoop limit rest (m.delete key)
      else expireLoop limit rest m

/-! ## The credential store -/

/-- The loop of `newDigestAuth` over the records read from the file. -/
def loadRecords : List (List String) → DigestAuth → Except String DigestAuth
  | [], h => .ok h
  | record :: rest, h =>
    if record.length ≠ 3 then .error "invalid htdigest file format"
    else
      let key := record.getD 0 "" ++ ":" ++ record.getD 1 ""
      let value := record.getD 2 ""
      loadRecords rest { h with users := h.users.set key value }

/-- The function `newDigestAuth`, given the result of `csvReader.ReadAll()`. -/
def newDigestAuth (readAll : Except String (List (List String))) :
    Except String DigestAuth :=
  match readAll with
  | .error err => .error err
  | .ok records => loadRecords records { users := GoMap.empty, nonces := GoMap.empty }

/-! ## `encoding/csv`

The reader of the Go standard library, as `newDigestAuth` configures it: `Comma = ':'`,
`Comment = '#'`, `TrimLeadingSpace = true`, `LazyQuotes = false`,
`FieldsPerRecord = 0`.  The input is a text that is read without read error. -/

/-- The errors `csv.ErrBareQuote`, `csv.ErrQuote` and `csv.ErrFieldCount`. -/
inductive CsvError where
  | ErrBareQuote
  | ErrQuote
  | ErrFieldCount
  deriving DecidableEq, Repr

/-- The function `unicode.IsSpace`. -/
def isSpace (c : Char) : Bool :=
  c.toNat = 0x09 || c.toNat = 0x0A || c.toNat = 0x0B || c.toNat = 0x0C || c.toNat = 0x0D ||
  c.toNat = 0x20 || c.toNat = 0x85 || c.toNat = 0xA0 || c.toNat = 0x1680 ||
  (0x2000 ≤ c.toNat && c.toNat ≤ 0x200A) || c.toNat = 0x2028 || c.toNat = 0x2029 ||
  c.toNat = 0x202F || c.toNat = 0x205F || c.toNat = 0x3000

/-- The function `lengthNL`: 1 if the line ends in a newline, else 0. -/
def lengthNL (b : List Char) : Nat :=
  if b.getLast? = some '\n' then 1 else 0

/-- The call `ReadSlice('\n')` of the buffered reader: the input up to and including the
first newline (all of it when there is none), and the input left. -/
def readSlice : List Char → List Char × List Char
  | [] => ([], [])
  | c :: cs =>
    if c = '\n' then ([c], cs)
    else ((c :: (readSlice cs).1), (readSlice cs).2)

/-- The method `Reader.readLine`: the next line, whether the end of the input was met
with nothing read (`io.EOF`), and the input left.  A `\r` before the end of the input
is dropped, and a final `\r\n` becomes `\n`. -/
def readLine (input : List Char) : List Char × Bool × List Char :=
  let line := (readSlice input).1
  let rest := (readSlice input).2
  let line1 :=
    if line ≠ [] ∧ line.getLast? ≠ some '\n' ∧ line.getLast? = some '\r' then line.dropLast
    else line
  let n := line1.length
  let line2 :=
    if n ≥ 2 ∧ line1.get? (n - 2) = some '\r' ∧ line1.get? (n - 1) = some '\n' then
      line1.take (n - 2) ++ ['\n']
    else line1
  (line2, decide (line = []), rest)

/-- The first loop of `Reader.readRecord`: read lines, skipping comment lines and empty
lines; `none` at the end of the input.  Every round reads at least one character, so
`fuel` above the length of the input is never used up. -/
def nextRecordLine : Nat → List Char → Option (List Char × List Char)
  | 0, _ => none
  | fuel + 1, input =>
    let line := (readLine input).1
    let eof := (readLine input).2.1
    let rest := (readLine input).2.2
    if line.head? = some '#' then
      if eof then none else nextRecordLine fuel rest
    else if ¬ eof ∧ line.length = lengthNL line then nextRecordLine fuel rest
    else if eof then none
    else some (line, rest)

/-- The loop `parseField` of `Reader.readRecord` on the line `line`, with `input` left
to read and the fields `fields` already found.  `quoted = none`: at the start of a field;
`quoted = some buf`: inside a quoted field whose text so far is `buf`.  Returns the
fields of the record and the input left.  Every round takes a character from the line
or a line from the input, so `fuel` above their total length is never used up. -/
def parseField : Nat → Option (List Char) → List Char → List Char → List (List Char) →
    Except CsvError (List (List Char) × List Char)
  | 0, _, _, _, _ => .error .ErrQuote
  | fuel + 1, none, line, input, fields =>
    let line := line.dropWhile isSpace
    if line.head? = some '"' then
      parseField fuel (some []) line.tail input fields
    else
      let field := line.takeWhile (fun c => c ≠ ':')
      match line.dropWhile (fun c => c ≠ ':') with
      | _ :: tail =>
        if '"' ∈ field then .error .ErrBareQuote
        else parseField fuel none tail input (fields ++ [field])
      | [] =>
        let field := field.take (field.length - lengthNL field)
        if '"' ∈ field then .error .ErrBareQuote
        else .ok (fields ++ [field], input)
  | fuel + 1, some buf, line, input, fields =>
    let pre := line.takeWhile (fun c => c ≠ '"')
    match line.dropWhile (fun c => c ≠ '"') with
    | _ :: tail =>
      if tail.head? = some '"' then
        parseField fuel (some (buf ++ pre ++ ['"'])) tail.tail input fields
      else if tail.head? = some ':' then
        parseField fuel none tail.tail input (fields ++ [buf ++ pre])
      else if lengthNL tail = tail.length then .ok (fields ++ [buf ++ pre], input)
      else .error .ErrQuote
    | [] =>
      if line ≠ [] then
        parseField fuel (some (buf ++ line)) (readLine input).1 (readLine input).2.2 fields
      else .error .ErrQuote

/-- The loop of `Reader.ReadAll`: read records until the end of the input;
`fieldsPerRecord` is 0 before the first record and its number of fields afterwards, and
a record with another number of fields is an error.  Every round reads at least one
character, so `fuel` above the length of the input is never used up. -/
def readAllLoop : Nat → Nat → List Char → List (List String) →
    Except CsvError (List (List String))
  | 0, _, _, _ => .error .ErrFieldCount
  | fuel + 1, fieldsPerRecord, input, records =>
    match nextRecordLine (input.length + 1) input with
    | none => .ok records
    | some (line, rest) =>
      match parseField (line.length + rest.length + 1) none line rest [] with
      | .error e => .error e
      | .ok (fields, rest') =>
        if fieldsPerRecord > 0 then
          if fields.length ≠ fieldsPerRecord then .error .ErrFieldCount
          else readAllLoop fuel fieldsPerRecord rest' (records ++ [fields.map String.mk])
        else readAllLoop fuel fields.length rest' (records ++ [fields.map String.mk])

/-- The method `Reader.ReadAll` on the text `file`. -/
def csvReadAll (file : String) : Except CsvError (List (List String)) :=
  readAllLoop (file.length + 1) 0 file.data []

/-- The error `newDigestAuth` returns: the error of the reader, or the error of the
loop over the records with its message.  Of a reader error only the kind is kept (the
`Err` of the `*csv.ParseError`), not the line and column reported with it. -/
inductive LoadError where
  | reader (err : CsvError)
  | format (msg : String)
  deriving DecidableEq, Repr

/-- The function `newDigestAuth` on a reader that yields the text `file`. -/
def newDigestAuthOfText (file : String) : Except LoadError DigestAuth :=
  match csvReadAll file with
  | .error e => .error (.reader e)
  | .ok records =>
    match newDigestAuth (.ok records) with
    | .error msg => .error (.format msg)
    | .ok h => .ok h

/-! ## Specification-level notions -/

/-- The digest a client must send (RFC 2617 with `qop`):
`hash(HA1:nonce:nc:cnonce:qop:hash(method:uri))`. -/
def expectedResponse (hash : String → String) (ha1 : String) (d : DigestAuthData) : String :=
  hash (ha1 ++ ":" ++ d.nonce ++ ":" ++ d.nc ++ ":" ++ d.cnonce ++ ":" ++ d.qop ++ ":"
    ++ hash (d.method ++ ":" ++ d.uri))

/-- The request a client that knows `ha1` sends: all fields as given, and the response
computed as in RFC 2617, `hash(ha1:nonce:nc:cnonce:qop:hash(method:uri))`. -/
def signedRequest (hash : String → String)
    (ha1 user realm nonce method uri qop nc cnonce : String) : DigestAuthData :=
  { user := user, realm := realm, nonce := nonce, method := method, uri := uri,
    response := hash (ha1 ++ ":" ++ nonce ++ ":" ++ nc ++ ":" ++ cnonce ++ ":" ++ qop ++ ":"
      ++ hash (method ++ ":" ++ uri)),
    qop := qop, nc := nc, cnonce := cnonce }

/-- The nonce record stored by an accepted request: `lastUsed` and `lastNonceCounter`
are overwritten, `issued` is kept. -/
def usedNonce (info : NonceInfo) (now : Time) (c : Nat) : NonceInfo :=
  { issued := info.issued, lastUsed := now, lastNonceCounter := c }

/-- A character of `0-9`, `a-f` or `A-F`. -/
def isHexDigit (c : Char) : Bool :=
  ('0'.toNat ≤ c.toNat && c.toNat ≤ '9'.toNat) ||
  ('a'.toNat ≤ c.toNat && c.toNat ≤ 'f'.toNat) ||
  ('A'.toNat ≤ c.toNat && c.toNat ≤ 'F'.toNat)

/-- The value of a hexadecimal digit: `0`..`9` are 0..9, `a`..`f` and `A`..`F` are
10..15. -/
def hexDigitValue (c : Char) : Nat :=
  if '0'.toNat ≤ c.toNat ∧ c.toNat ≤ '9'.toNat then c.toNat - '0'.toNat
  else if 'a'.toNat ≤ c.toNat ∧ c.toNat ≤ 'f'.toNat then 10 + (c.toNat - 'a'.toNat)
  else 10 + (c.toNat - 'A'.toNat)

/-- The value of a hexadecimal numeral in positional notation: the digit at distance
`k` from the end counts `16 ^ k` times its value. -/
def hexValue : List Char → Nat
  | [] => 0
  | c :: cs => hexDigitValue c * 16 ^ cs.length + hexValue cs

/-- A hexadecimal numeral: a non-empty string of hexadecimal digits. -/
def isHexNumeral (s : String) : Prop :=
  s ≠ "" ∧ ∀ c ∈ s.data, isHexDigit c = true


/-- The candidate token of round `k` of the loop of `newNonce`: the hash of the random
string made from the draws `100 * k, ..., 100 * k + 99`. -/
def candidate (hash : String → String) (rnd : Nat → Nat) (k : Nat) : String :=
  hash (makeRandomString (fun i => rnd (i + 100 * k)) 100)

/-- The state after a sequence of `validate` calls, each with its clock reading. -/
def validateAll (hash : String → String) : List (Time × DigestAuthData) → DigestAuth → DigestAuth
  | [], h => h
  | call :: rest, h => validateAll hash rest (validate hash call.1 h call.2).2

/-- The map key `newDigestAuth` stores a record under: `record[0] + ":" + record[1]`. -/
def recordKey (record : List String) : String :=
  record.getD 0 "" ++ ":" ++ record.getD 1 ""

/-- The digest field (third field) of the last record that satisfies `p`, if there is
one. -/
def lastDigestWhere (p : List String → Prop) [DecidablePred p] :
    List (List String) → Option String
  | [] => none
  | record :: rest =>
    match lastDigestWhere p rest with
    | some v => some v
    | none => if p record then some (record.getD 2 "") else none

/-- The digest field of the last record with the given username and realm, if there is
one. -/
def lastDigest (records : List (List String)) (user realm : String) : Option String :=
  lastDigestWhere (fun r => r.getD 0 "" = user ∧ r.getD 1 "" = realm) records

/-- The digest field of the last record stored under the given map key, if there is
one. -/
def lastDigestOfKey (records : List (List String)) (key : String) : Option String :=
  lastDigestWhere (fun r => recordKey r = key) records

/-- Whether the character `:` occurs in a string. -/
def hasColon (s : String) : Bool := s.data.contains ':'

/-- The end of a line of a source text: a line feed, a carriage return and a line feed,
or, for the last line, the end of the text, with or without a carriage return before
it. -/
inductive LineEnd where
  | lf
  | crlf
  | eof
  | crEof
  deriving DecidableEq, Repr

/-- The characters of a line end. -/
def LineEnd.render : LineEnd → List Char
  | .lf => ['\n']
  | .crlf => ['\r', '\n']
  | .eof => []
  | .crEof => ['\r']

/-- Whether a line end has a line feed, so that another line can follow. -/
def LineEnd.isNewline : LineEnd → Bool
  | .lf => true
  | .crlf => true
  | .eof => false
  | .crEof => false

/-- Whether a line end has a carriage return. -/
def LineEnd.hasCR : LineEnd → Bool
  | .lf => false
  | .crlf => true
  | .eof => false
  | .crEof => true

/-- The line feed with which the reader sees a line that has one. -/
def LineEnd.seen (e : LineEnd) : List Char :=
  if e.isNewline then ['\n'] else []

/-- A line without its final `\r`, if it has one. -/
def dropCR (line : List Char) : List Char :=
  if line.getLast? = some '\r' then line.dropLast else line

/-- A line of a credential source text: a comment line `#text`, or a record line
`user:realm:digest` with whitespace before each of its fields; each with its line
end. -/
inductive SourceLine where
  | comment (text : List Char) (lineEnd : LineEnd)
  | record (pad1 user pad2 realm pad3 digest : List Char) (lineEnd : LineEnd)

/-- The line end of a line. -/
def SourceLine.lineEnd : SourceLine → LineEnd
  | .comment _ e => e
  | .record _ _ _ _ _ _ e => e

/-- A field written without quoting: without double quote, colon and line feed, and not
starting with whitespace. -/
def plainField (f : List Char) : Prop :=
  (∀ c ∈ f, c ≠ '"' ∧ c ≠ ':' ∧ c ≠ '\n') ∧
  ∀ c, f.head? = some c → isSpace c = false

/-- Whitespace within a line: characters of `unicode.IsSpace` other than the line
feed. -/
def padding (p : List Char) : Prop :=
  ∀ c ∈ p, isSpace c = true ∧ c ≠ '\n'

/-- A comment line has no line feed in its text.  A record line has whitespace as padding
and fields written without quoting, and does not begin with `#`; a `\r` right before
the end of the line counts as part of the line end, not of the digest. -/
def SourceLine.WellFormed : SourceLine → Prop
  | .comment text _ => '\n' ∉ text
  | .record pad1 user pad2 realm pad3 digest e =>
    padding pad1 ∧ padding pad2 ∧ padding pad3 ∧
    plainField user ∧ plainField realm ∧ plainField digest ∧
    (pad1 ++ user).head? ≠ some '#' ∧
    (e.hasCR = false → digest.getLast? ≠ some '\r')

/-- A source text of well-formed lines, of which every line but the last ends in a line
feed. -/
def sourceWellFormed : List SourceLine → Prop
  | [] => True
  | l :: rest =>
    l.WellFormed ∧ (rest ≠ [] → l.lineEnd.isNewline = true) ∧ sourceWellFormed rest

/-- The characters of a line of the source, with its line end. -/
def SourceLine.render : SourceLine → List Char
  | .comment text e => '#' :: text ++ e.render
  | .record pad1 user pad2 realm pad3 digest e =>
    pad1 ++ user ++ ':' :: (pad2 ++ realm ++ ':' :: (pad3 ++ digest ++ e.render))

/-- The record a line of the source stands for: none for a comment line, the three
fields without their padding for a record line. -/
def SourceLine.fields : SourceLine → Option (List String)
  | .comment _ _ => none
  | .record _ user _ realm _ digest _ =>
    some [String.mk user, String.mk realm, String.mk digest]

/-- The text of a credential source made of the given lines. -/
def renderSource (src : List SourceLine) : String :=
  String.mk (src.map SourceLine.render).flatten

/-- What `newDigestAuth` returns on a reader that yields the records `records`. -/
def loadOfRecords (records : List (List String)) : Except LoadError DigestAuth :=
  match newDigestAuth (.ok records) with
  | .error msg => .error (.format msg)
  | .ok h => .ok h

/-! ## A concrete scenario

The store of the scenario `alice:example.com:<HA1>`, with a stand-in for the hash
function that can be evaluated. -/

/-- An injective stand-in for the MD5 hex digest. -/
def sampleHash (s : String) : String := "<" ++ s ++ ">"

/-- The result of loading the single record `alice:example.com:ha1`. -/
def sampleStore : DigestAuth :=
  { users := GoMap.empty.set "alice:example.com" "ha1", nonces := GoMap.empty }

/-- The token `newNonce` returns when every draw of the generator is 0. -/
def sampleNonce : String := sampleHash (makeRandomString (fun _ => 0) 100)

/-- The request of the scenario with counter string `nc`, signed for `sampleNonce`. -/
def sampleRequest (nc : String) : DigestAuthData :=
  signedRequest sampleHash "ha1" "alice" "example.com" sampleNonce "GET" "/private" "auth"
    nc "abc123"

/-- The state of the scenario with one registered nonce `N` and its record. -/
def aliceState (N : String) (info : NonceInfo) : DigestAuth :=
  { users := sampleStore.users, nonces := sampleStore.nonces.set N info }

/-- The request of the scenario on nonce `N` with counter string `nc`, signed with the
hash function `hash`. -/
def aliceRequest (hash : String → String) (N nc : String) : DigestAuthData :=
  signedRequest hash "ha1" "alice" "example.com" N "GET" "/private" "auth" nc "abc123"

/-! ## Lemmas on `validate` -/

theorem GoMap.set_same {V : Type} (m : GoMap V) (k : String) (v : V) :
    m.set k v k = some v := by
  simp [GoMap.set]

theorem GoMap.set_other {V : Type} (m : GoMap V) (k k' : String) (v : V) (hk : k' ≠ k) :
    m.set k v k' = m k' := by
  simp [GoMap.set, hk]

theorem expectedResponse_signedRequest (hash : String → String)
    (ha1 user realm nonce method uri qop nc cnonce : String) :
    (signedRequest hash ha1 user realm nonce method uri qop nc cnonce).response =
      expectedResponse hash ha1
        (signedRequest hash ha1 user realm nonce method uri qop nc cnonce) := by
  simp [signedRequest, expectedResponse]

/-- The accepting path of `validate`. -/
theorem validate_accept {hash : String → String} {now : Time} {h : DigestAuth}
    {d : DigestAuthData} {ha1 : String} {info : NonceInfo} {c : Nat}
    (hu : h.users (d.user ++ ":" ++ d.realm) = some ha1)
    (hn : h.nonces d.nonce = some info)
    (hp : ParseUint d.nc 16 64 = .ok c)
    (hc : c ≠ info.lastNonceCounter)
    (hr : d.response = expectedResponse hash ha1 d) :
    validate hash now h d =
      (true, { users := h.users, nonces := h.nonces.set d.nonce (usedNonce info now c) }) := by
  have hr' := hr
  simp only [expectedResponse] at hr'
  simp [validate, hu, hn, hp, hc, hr', usedNonce]

/-- What an accepting call of `validate` has checked and done. -/
theorem validate_true_inv {hash : String → String} {now : Time} {h : DigestAuth}
    {d : DigestAuthData} (ht : (validate hash now h d).1 = true) :
    ∃ ha1 info c,
      h.users (d.user ++ ":" ++ d.realm) = some ha1 ∧
      h.nonces d.nonce = some info ∧
      ParseUint d.nc 16 64 = .ok c ∧
      c ≠ info.lastNonceCounter ∧
      d.response = expectedResponse hash ha1 d ∧
      validate hash now h d =
        (true, { users := h.users, nonces := h.nonces.set d.nonce (usedNonce info now c) }) := by
  cases hu : h.users (d.user ++ ":" ++ d.realm) with
  | none => simp [validate, hu] at ht
  | some ha1 =>
    cases hn : h.nonces d.nonce with
    | none => simp [validate, hu, hn] at ht
    | some info =>
      cases hp : ParseUint d.nc 16 64 with
      | error e => simp [validate, hu, hn, hp] at ht
      | ok c =>
        by_cases hc : c = info.lastNonceCounter
        · simp [validate, hu, hn, hp, hc] at ht
        · by_cases hr : d.response = expectedResponse hash ha1 d
          · exact ⟨ha1, info, c, rfl, rfl, rfl, hc, hr, validate_accept hu hn hp hc hr⟩
          · have hr' := hr
            simp only [expectedResponse] at hr'
            simp [validate, hu, hn, hp, hc, hr'] at ht

/-- A rejecting call of `validate` returns the state it was given. -/
theorem validate_false_state {hash : String → String} {now : Time} {h : DigestAuth}
    {d : DigestAuthData} (hf : (validate hash now h d).1 = false) :
    (validate hash now h d).2 = h := by
  cases ht : (validate hash now h d).1 with
  | false =>
    cases hu : h.users (d.user ++ ":" ++ d.realm) with
    | none => simp [validate, hu]
    | some ha1 =>
      cases hn : h.nonces d.nonce with
      | none => simp [validate, hu, hn]
      | some info =>
        cases hp : ParseUint d.nc 16 64 with
        | error e => simp [validate, hu, hn, hp]
        | ok c =>
          by_cases hc : c = info.lastNonceCounter
          · simp [validate, hu, hn, hp, hc]
          · by_cases hr : d.response = expectedResponse hash ha1 d
            · rw [validate_accept hu hn hp hc hr] at ht
              simp at ht
            · have hr' := hr
              simp only [expectedResponse] at hr'
              simp [validate, hu, hn, hp, hc, hr']
  | true => rw [ht] at hf; simp at hf

/-- A request whose nonce is not registered is rejected. -/
theorem validate_nonce_absent (hash : String → String) (now : Time) (h : DigestAuth)
    (d : DigestAuthData) (hn : h.nonces d.nonce = none) :
    (validate hash now h d).1 = false := by
  cases hu : h.users (d.user ++ ":" ++ d.realm) with
  | none => simp [validate, hu]
  | some ha1 => simp [validate, hu, hn]

/-- A request whose counter does not parse is rejected. -/
theorem validate_parse_error (hash : String → String) (now : Time) (h : DigestAuth)
    (d : DigestAuthData) (e : NumError) (hp : ParseUint d.nc 16 64 = .error e) :
    (validate hash now h d).1 = false := by
  cases hu : h.users (d.user ++ ":" ++ d.realm) with
  | none => simp [validate, hu]
  | some ha1 =>
    cases hn : h.nonces d.nonce with
    | none => simp [validate, hu, hn]
    | some info => simp [validate, hu, hn, hp]

/-- A request whose counter equals the stored one is rejected. -/
theorem validate_same_counter (hash : String → String) (now : Time) (h : DigestAuth)
    (d : DigestAuthData) (info : NonceInfo)
    (hn : h.nonces d.nonce = some info)
    (hp : ParseUint d.nc 16 64 = .ok info.lastNonceCounter) :
    (validate hash now h d).1 = false := by
  cases hu : h.users (d.user ++ ":" ++ d.realm) with
  | none => simp [validate, hu]
  | some ha1 => simp [validate, hu, hn, hp]

/-- The loop of `newDigestAuth` does not touch the nonce map. -/
theorem loadRecords_nonces (records : List (List String)) :
    ∀ (h h' : DigestAuth), loadRecords records h = .ok h' → h'.nonces = h.nonces := by
  induction records with
  | nil =>
    intro h h' hl
    simp [loadRecords] at hl
    rw [hl]
  | cons record rest ih =>
    intro h h' hl
    by_cases hlen : record.length = 3
    · simp only [loadRecords, hlen, ne_eq, not_true_eq_false, if_false] at hl
      have hrest := ih _ _ hl
      simpa using hrest
    · simp [loadRecords, hlen] at hl

/-- What a returning call of `newNonce` has done. -/
theorem newNonce_some (hash : String → String) (t1 t2 : Time) (fuel : Nat) :
    ∀ (rnd : Nat → Nat) (h h' : DigestAuth) (N : String),
      newNonce hash t1 t2 fuel rnd h = some (N, h') →
      h.nonces N = none ∧ h' = addNonce t1 t2 h N := by
  induction fuel with
  | zero =>
    intro rnd h h' N hnew
    simp [newNonce] at hnew
  | succ fuel ih =>
    intro rnd h h' N hnew
    cases hm : h.nonces (hash (makeRandomString rnd 100)) with
    | none =>
      simp only [newNonce, hm, Option.some.injEq, Prod.mk.injEq] at hnew
      obtain ⟨h1, h2⟩ := hnew
      subst h1
      exact ⟨hm, h2.symm⟩
    | some info =>
      simp only [newNonce, hm] at hnew
      exact ih _ _ _ _ hnew

theorem GoMap.set_set {V : Type} (m : GoMap V) (k : String) (a b : V) :
    (m.set k a).set k b = m.set k b := by
  funext k'
  by_cases hk : k' = k <;> simp [GoMap.set, hk]

/-- A correctly signed request of alice with a counter other than the stored one is
accepted, and overwrites the stored counter. -/
theorem validate_aliceState (hash : String → String) (N : String) (info : NonceInfo)
    (now : Time) (nc : String) (c : Nat)
    (hp : ParseUint nc 16 64 = .ok c) (hc : c ≠ info.lastNonceCounter) :
    validate hash now (aliceState N info) (aliceRequest hash N nc)
      = (true, aliceState N (usedNonce info now c)) := by
  have hu : (aliceState N info).users
      ((aliceRequest hash N nc).user ++ ":" ++ (aliceRequest hash N nc).realm) = some "ha1" :=
    show sampleStore.users ("alice" ++ ":" ++ "example.com") = some "ha1" by decide
  have hn : (aliceState N info).nonces (aliceRequest hash N nc).nonce = some info :=
    GoMap.set_same _ _ _
  rw [validate_accept hu hn hp hc (expectedResponse_signedRequest _ _ _ _ _ _ _ _ _ _)]
  simp only [aliceState, aliceRequest, signedRequest, GoMap.set_set]

theorem parseUint_00000001 : ParseUint "00000001" 16 64 = .ok 1 := by rfl

/-! ## Lemmas on `ParseUint` -/

theorem digitVal_of_isHexDigit (c : Char) (hc : isHexDigit c = true) :
    digitVal c.toNat = some (hexDigitValue c) ∧ hexDigitValue c < 16 := by
  simp only [isHexDigit, Bool.or_eq_true, Bool.and_eq_true, decide_eq_true_eq] at hc
  simp only [digitVal, hexDigitValue]
  simp only [show '0'.toNat = 48 from rfl, show '9'.toNat = 57 from rfl,
    show 'a'.toNat = 97 from rfl, show 'f'.toNat = 102 from rfl,
    show 'z'.toNat = 122 from rfl, show 'A'.toNat = 65 from rfl,
    show 'F'.toNat = 70 from rfl, show 'Z'.toNat = 90 from rfl] at hc ⊢
  generalize c.toNat = n at hc ⊢
  split_ifs <;> simp <;> omega

theorem digitVal_of_not_isHexDigit (c : Char) (hc : isHexDigit c = false) :
    digitVal c.toNat = none ∨ ∃ v, digitVal c.toNat = some v ∧ 16 ≤ v := by
  simp only [isHexDigit, Bool.or_eq_false_iff, Bool.and_eq_false_iff, decide_eq_false_iff_not] at hc
  simp only [digitVal]
  simp only [show '0'.toNat = 48 from rfl, show '9'.toNat = 57 from rfl,
    show 'a'.toNat = 97 from rfl, show 'f'.toNat = 102 from rfl,
    show 'z'.toNat = 122 from rfl, show 'A'.toNat = 65 from rfl,
    show 'F'.toNat = 70 from rfl, show 'Z'.toNat = 90 from rfl] at hc ⊢
  generalize c.toNat = n at hc ⊢
  split_ifs <;> simp <;> omega

/-- With base 16 and bit size 64, `ParseUint` runs its loop with cutoff `2^60` and
maximum `2^64 - 1` on every non-empty string. -/
theorem ParseUint_hex (s : String) (hs : s ≠ "") :
    ParseUint s 16 64 = parseUintLoop 16 (2 ^ 60) (2 ^ 64 - 1) s.data 0 := by
  simp [ParseUint, hs, maxUint64]

/-- One round of the loop of `ParseUint` on a byte that is a digit. -/
theorem parseUintLoop_cons (base cutoff maxVal : Nat) (c : Char) (cs : List Char) (n v : Nat)
    (hd : digitVal c.toNat = some v) :
    parseUintLoop base cutoff maxVal (c :: cs) n =
      if v ≥ base then .error .ErrSyntax
      else if n ≥ cutoff then .error .ErrRange
      else if (n * base % 2 ^ 64 + v) % 2 ^ 64 < n * base % 2 ^ 64 ∨
          (n * base % 2 ^ 64 + v) % 2 ^ 64 > maxVal then .error .ErrRange
      else parseUintLoop base cutoff maxVal cs ((n * base % 2 ^ 64 + v) % 2 ^ 64) := by
  simp only [parseUintLoop, hd]

/-- The loop of `ParseUint` on a string with a character that is no hexadecimal digit
ends in an error. -/
theorem parseUintLoop_bad (cs : List Char) :
    ∀ n : Nat, (∃ c ∈ cs, isHexDigit c = false) →
      ∃ e, parseUintLoop 16 (2 ^ 60) (2 ^ 64 - 1) cs n = .error e := by
  induction cs with
  | nil =>
    intro n hbad
    simp at hbad
  | cons c cs ih =>
    intro n hbad
    cases hd : digitVal c.toNat with
    | none => exact ⟨.ErrSyntax, by simp only [parseUintLoop, hd]⟩
    | some v =>
      rw [parseUintLoop_cons _ _ _ _ _ _ _ hd]
      by_cases hv : v ≥ 16
      · exact ⟨.ErrSyntax, by rw [if_pos hv]⟩
      · rw [if_neg hv]
        by_cases hn : n ≥ 2 ^ 60
        · exact ⟨.ErrRange, by rw [if_pos hn]⟩
        · rw [if_neg hn]
          by_cases hov : (n * 16 % 2 ^ 64 + v) % 2 ^ 64 < n * 16 % 2 ^ 64 ∨
              (n * 16 % 2 ^ 64 + v) % 2 ^ 64 > 2 ^ 64 - 1
          · exact ⟨.ErrRange, by rw [if_pos hov]⟩
          · rw [if_neg hov]
            apply ih
            obtain ⟨c', hmem, hc'⟩ := hbad
            rcases List.mem_cons.mp hmem with heq | hmem'
            · subst heq
              rcases digitVal_of_not_isHexDigit c' hc' with h1 | ⟨w, h1, h2⟩
              · rw [hd] at h1
                cases h1
              · rw [hd] at h1
                cases h1
                omega
            · exact ⟨c', hmem', hc'⟩

/-- The loop of `ParseUint` on hexadecimal digits computes the positional value, and
reports a range error exactly when that value does not fit in 64 bits. -/
theorem parseUintLoop_hex (cs : List Char) :
    ∀ n : Nat, n < 2 ^ 64 → (∀ c ∈ cs, isHexDigit c = true) →
      (n * 16 ^ cs.length + hexValue cs < 2 ^ 64 →
        parseUintLoop 16 (2 ^ 60) (2 ^ 64 - 1) cs n = .ok (n * 16 ^ cs.length + hexValue cs)) ∧
      (2 ^ 64 ≤ n * 16 ^ cs.length + hexValue cs →
        parseUintLoop 16 (2 ^ 60) (2 ^ 64 - 1) cs n = .error .ErrRange) := by
  induction cs with
  | nil =>
    intro n hn64 _
    have e : n * 16 ^ ([] : List Char).length + hexValue [] = n := by simp [hexValue]
    rw [e]
    exact ⟨fun _ => rfl, fun hge => absurd hge (by omega)⟩
  | cons c cs ih =>
    intro n _ hall
    obtain ⟨hd, hv⟩ := digitVal_of_isHexDigit c (hall c (List.mem_cons_self _ _))
    have hrest : ∀ c' ∈ cs, isHexDigit c' = true :=
      fun c' hc' => hall c' (List.mem_cons_of_mem _ hc')
    have hpos : 1 ≤ 16 ^ cs.length := Nat.one_le_pow _ _ (by decide)
    have hval : n * 16 ^ (c :: cs).length + hexValue (c :: cs)
        = (n * 16 + hexDigitValue c) * 16 ^ cs.length + hexValue cs := by
      simp only [List.length_cons, hexValue, pow_succ]
      ring
    rw [hval, parseUintLoop_cons _ _ _ _ _ _ _ hd, if_neg (by omega)]
    by_cases hn : n ≥ 2 ^ 60
    · rw [if_pos hn]
      have hbig : 2 ^ 64 ≤ (n * 16 + hexDigitValue c) * 16 ^ cs.length + hexValue cs := by
        have h1 : n * 16 + hexDigitValue c ≤ (n * 16 + hexDigitValue c) * 16 ^ cs.length :=
          Nat.le_mul_of_pos_right _ hpos
        omega
      exact ⟨fun hlt => absurd hbig (by omega), fun _ => rfl⟩
    · rw [if_neg hn]
      have hn0 : n * 16 % 2 ^ 64 = n * 16 := Nat.mod_eq_of_lt (by omega)
      have hn1 : (n * 16 + hexDigitValue c) % 2 ^ 64 = n * 16 + hexDigitValue c :=
        Nat.mod_eq_of_lt (by omega)
      rw [hn0, hn1, if_neg (by omega)]
      exact ih _ (by omega) hrest

/-- On a hexadecimal numeral, `ParseUint` returns the value of the numeral when it is
below `2^64` and a range error otherwise. -/
theorem ParseUint_of_isHexNumeral (s : String) (hs : isHexNumeral s) :
    (hexValue s.data < 2 ^ 64 → ParseUint s 16 64 = .ok (hexValue s.data)) ∧
    (2 ^ 64 ≤ hexValue s.data → ParseUint s 16 64 = .error .ErrRange) := by
  rw [ParseUint_hex s hs.1]
  have hloop := parseUintLoop_hex s.data 0 (by decide) hs.2
  simpa using hloop

/-- On a string that is no hexadecimal numeral, `ParseUint` returns an error. -/
theorem ParseUint_of_not_isHexNumeral (s : String)
    (hs : s = "" ∨ ∃ c ∈ s.data, isHexDigit c = false) :
    ∃ e, ParseUint s 16 64 = .error e := by
  by_cases he : s = ""
  · exact ⟨.ErrSyntax, by simp [ParseUint, he]⟩
  · rcases hs with h1 | h2
    · exact absurd h1 he
    · rw [ParseUint_hex s he]
      exact parseUintLoop_bad s.data 0 h2

/-- The upper-case form of a hexadecimal digit is a hexadecimal digit of the same
value. -/
theorem hexDigit_toUpper (c : Char) (hc : isHexDigit c = true) :
    isHexDigit c.toUpper = true ∧ hexDigitValue c.toUpper = hexDigitValue c := by
  by_cases h : c.toNat ≥ 97 ∧ c.toNat ≤ 122
  · have hr : 97 ≤ c.toNat ∧ c.toNat ≤ 102 := by
      simp only [isHexDigit, Bool.or_eq_true, Bool.and_eq_true, decide_eq_true_eq,
        show '0'.toNat = 48 from rfl, show '9'.toNat = 57 from rfl,
        show 'a'.toNat = 97 from rfl, show 'f'.toNat = 102 from rfl,
        show 'A'.toNat = 65 from rfl, show 'F'.toNat = 70 from rfl] at hc
      omega
    obtain ⟨n, hn⟩ : ∃ n, c.toNat = n := ⟨_, rfl⟩
    have hcn : c = Char.ofNat n := by rw [← hn, Char.ofNat_toNat]
    rw [hn] at hr
    subst hcn
    obtain ⟨h1, h2⟩ := hr
    interval_cases n <;> decide
  · have hup : c.toUpper = c := by simp only [Char.toUpper, h, if_false]
    rw [hup]
    exact ⟨hc, rfl⟩

/-- The lower-case form of a hexadecimal digit is a hexadecimal digit of the same
value. -/
theorem hexDigit_toLower (c : Char) (hc : isHexDigit c = true) :
    isHexDigit c.toLower = true ∧ hexDigitValue c.toLower = hexDigitValue c := by
  by_cases h : c.toNat ≥ 65 ∧ c.toNat ≤ 90
  · have hr : 65 ≤ c.toNat ∧ c.toNat ≤ 70 := by
      simp only [isHexDigit, Bool.or_eq_true, Bool.and_eq_true, decide_eq_true_eq,
        show '0'.toNat = 48 from rfl, show '9'.toNat = 57 from rfl,
        show 'a'.toNat = 97 from rfl, show 'f'.toNat = 102 from rfl,
        show 'A'.toNat = 65 from rfl, show 'F'.toNat = 70 from rfl] at hc
      omega
    obtain ⟨n, hn⟩ : ∃ n, c.toNat = n := ⟨_, rfl⟩
    have hcn : c = Char.ofNat n := by rw [← hn, Char.ofNat_toNat]
    rw [hn] at hr
    subst hcn
    obtain ⟨h1, h2⟩ := hr
    interval_cases n <;> decide
  · have hlow : c.toLower = c := by simp only [Char.toLower, h, if_false]
    rw [hlow]
    exact ⟨hc, rfl⟩

/-- Mapping the digits of a numeral by a function that keeps hexadecimal digits and
their values keeps the numeral and its value. -/
theorem hexValue_map (f : Char → Char)
    (hf : ∀ c, isHexDigit c = true → isHexDigit (f c) = true ∧ hexDigitValue (f c) = hexDigitValue c)
    (cs : List Char) (hcs : ∀ c ∈ cs, isHexDigit c = true) :
    (∀ c ∈ cs.map f, isHexDigit c = true) ∧ hexValue (cs.map f) = hexValue cs := by
  induction cs with
  | nil => simp [hexValue]
  | cons c cs ih =>
    obtain ⟨ih1, ih2⟩ := ih (fun c' hc' => hcs c' (List.mem_cons_of_mem _ hc'))
    obtain ⟨hf1, hf2⟩ := hf c (hcs c (List.mem_cons_self _ _))
    constructor
    · intro c' hc'
      rw [List.map_cons] at hc'
      rcases List.mem_cons.mp hc' with heq | hmem
      · rw [heq]
        exact hf1
      · exact ih1 c' hmem
    · simp only [List.map_cons, hexValue, List.length_map, hf2, ih2]

/-- Leading zeros keep a hexadecimal numeral and its value. -/
theorem hexValue_zeros (k : Nat) (cs : List Char) (hcs : ∀ c ∈ cs, isHexDigit c = true) :
    (∀ c ∈ List.replicate k '0' ++ cs, isHexDigit c = true) ∧
    hexValue (List.replicate k '0' ++ cs) = hexValue cs := by
  induction k with
  | zero => simpa using hcs
  | succ k ih =>
    obtain ⟨ih1, ih2⟩ := ih
    constructor
    · intro c hc
      rw [List.replicate_succ, List.cons_append] at hc
      rcases List.mem_cons.mp hc with heq | hmem
      · rw [heq]
        decide
      · exact ih1 c hmem
    · rw [List.replicate_succ, List.cons_append, hexValue, ih2]
      have h0 : hexDigitValue '0' = 0 := by decide
      rw [h0]
      omega

/-- A non-empty list of hexadecimal digits of value `v` below `2^64` parses to `v`. -/
theorem ParseUint_mk (cs : List Char) (v : Nat)
    (hcs : ∀ c ∈ cs, isHexDigit c = true) (hval : hexValue cs = v) (hlt : v < 2 ^ 64)
    (hne : cs ≠ []) :
    ParseUint (String.mk cs) 16 64 = .ok v := by
  have hnum : isHexNumeral (String.mk cs) := by
    refine ⟨?_, hcs⟩
    intro h
    apply hne
    have := congrArg String.data h
    simpa using this
  have hres := (ParseUint_of_isHexNumeral (String.mk cs) hnum).1
  simp only at hres
  rw [hval] at hres
  exact hres hlt

/-! ## Lemmas on the nonce registry -/

theorem candidate_zero (hash : String → String) (rnd : Nat → Nat) :
    candidate hash rnd 0 = hash (makeRandomString rnd 100) := by
  simp [candidate]

theorem candidate_shift (hash : String → String) (rnd : Nat → Nat) (k : Nat) :
    candidate hash (fun i => rnd (i + 100)) k = candidate hash rnd (k + 1) := by
  have hstream : (fun i => (fun i => rnd (i + 100)) (i + 100 * k))
      = fun i => rnd (i + 100 * (k + 1)) := by
    funext i
    have hi : i + 100 * k + 100 = i + 100 * (k + 1) := by ring
    simp only [hi]
  simp only [candidate, hstream]

/-- The loop of `newNonce` returns the first candidate that is not registered, as soon
as the fuel covers its round. -/
theorem newNonce_first_fresh (hash : String → String) (t1 t2 : Time) (h : DigestAuth)
    (k : Nat) :
    ∀ (rnd : Nat → Nat) (fuel : Nat),
      (∀ j, j < k → h.nonces (candidate hash rnd j) ≠ none) →
      h.nonces (candidate hash rnd k) = none → k < fuel →
      newNonce hash t1 t2 fuel rnd h
        = some (candidate hash rnd k, addNonce t1 t2 h (candidate hash rnd k)) := by
  induction k with
  | zero =>
    intro rnd fuel _ hfresh hfuel
    obtain ⟨f, rfl⟩ : ∃ f, fuel = f + 1 := ⟨fuel - 1, by omega⟩
    rw [candidate_zero] at hfresh ⊢
    simp only [newNonce, hfresh]
  | succ k ih =>
    intro rnd fuel hbusy hfresh hfuel
    obtain ⟨f, rfl⟩ : ∃ f, fuel = f + 1 := ⟨fuel - 1, by omega⟩
    have h0 := hbusy 0 (by omega)
    rw [candidate_zero] at h0
    cases hm : h.nonces (hash (makeRandomString rnd 100)) with
    | none => exact absurd hm h0
    | some info =>
      simp only [newNonce, hm]
      have hrec := ih (fun i => rnd (i + 100)) f
        (fun j hj => by rw [candidate_shift]; exact hbusy (j + 1) (by omega))
        (by rw [candidate_shift]; exact hfresh) (by omega)
      rw [candidate_shift] at hrec
      exact hrec

theorem GoMap.delete_same {V : Type} (m : GoMap V) (k : String) : m.delete k k = none := by
  simp [GoMap.delete]

theorem GoMap.delete_other {V : Type} (m : GoMap V) (k k' : String) (hk : k' ≠ k) :
    m.delete k k' = m k' := by
  simp [GoMap.delete, hk]

/-- The entry of `k` after the loop of `expireNonces` over `keys`: swept when `k` is
among the keys, untouched otherwise. -/
theorem expireLoop_apply (limit : Time) (keys : List String) :
    ∀ (m : GoMap NonceInfo) (k : String),
      expireLoop limit keys m k =
        if k ∈ keys then
          (match m k with
            | none => none
            | some value => if value.lastUsed < limit then none else some value)
        else m k := by
  induction keys with
  | nil =>
    intro m k
    simp [expireLoop]
  | cons key rest ih =>
    intro m k
    cases hm : m key with
    | none =>
      simp only [expireLoop, hm]
      rw [ih]
      by_cases hk : k = key
      · subst hk
        simp [hm]
      · simp [hk]
    | some value =>
      by_cases hold : value.lastUsed < limit
      · simp only [expireLoop, hm, hold, if_true]
        rw [ih]
        by_cases hk : k = key
        · subst hk
          simp [hm, hold, GoMap.delete_same]
        · simp [hk, GoMap.delete_other _ _ _ hk]
      · simp only [expireLoop, hm, hold, if_false]
        rw [ih]
        by_cases hk : k = key
        · subst hk
          simp [hm, hold]
        · simp [hk]

/-- The entry of `k` after `expireNonces`. -/
theorem expireNonces_apply (now : Time) (h : DigestAuth) (k : String) :
    (expireNonces now h).nonces k =
      match h.nonces k with
      | none => none
      | some value =>
        if value.lastUsed < now + (-maxNonceInactiveInterval) then none else some value := by
  rfl

/-- A call of `validate` registers no nonce. -/
theorem validate_nonces_none (hash : String → String) (now : Time) (h : DigestAuth)
    (d : DigestAuthData) (k : String) (hk : h.nonces k = none) :
    (validate hash now h d).2.nonces k = none := by
  cases hv : (validate hash now h d).1 with
  | false => rw [validate_false_state hv]; exact hk
  | true =>
    obtain ⟨ha1, info, c, hu, hn, hp, hc, hr, he⟩ := validate_true_inv hv
    rw [he]
    have hne : k ≠ d.nonce := by
      intro hkd
      rw [hkd, hn] at hk
      cases hk
    exact (GoMap.set_other _ _ _ _ hne).trans hk

/-- A sequence of calls of `validate` registers no nonce. -/
theorem validateAll_nonces_none (hash : String → String)
    (calls : List (Time × DigestAuthData)) :
    ∀ (h : DigestAuth) (k : String), h.nonces k = none →
      (validateAll hash calls h).nonces k = none := by
  induction calls with
  | nil =>
    intro h k hk
    exact hk
  | cons call rest ih =>
    intro h k hk
    exact ih _ k (validate_nonces_none hash call.1 h call.2 k hk)

/-! ## Lemmas on the credential store -/

/-- The loop of `newDigestAuth` fails on a list with a record that has not 3 fields. -/
theorem loadRecords_bad (records : List (List String)) :
    ∀ h : DigestAuth, (∃ r ∈ records, r.length ≠ 3) →
      loadRecords records h = .error "invalid htdigest file format" := by
  induction records with
  | nil =>
    intro h hbad
    simp at hbad
  | cons record rest ih =>
    intro h hbad
    by_cases hlen : record.length = 3
    · simp only [loadRecords, hlen, ne_eq, not_true_eq_false, if_false]
      apply ih
      obtain ⟨r, hmem, hr⟩ := hbad
      rcases List.mem_cons.mp hmem with heq | hmem'
      · subst heq
        exact absurd hlen hr
      · exact ⟨r, hmem', hr⟩
    · simp [loadRecords, hlen]

/-- The loop of `newDigestAuth` succeeds on records of 3 fields; the resulting map holds,
for each key, the digest of the last record stored under it, or else what it held
before. -/
theorem loadRecords_ok (records : List (List String)) :
    ∀ h : DigestAuth, (∀ r ∈ records, r.length = 3) →
      ∃ h', loadRecords records h = .ok h' ∧ h'.nonces = h.nonces ∧
        ∀ key : String, h'.users key =
          match lastDigestOfKey records key with
          | some v => some v
          | none => h.users key := by
  induction records with
  | nil =>
    intro h _
    exact ⟨h, rfl, rfl, fun key => rfl⟩
  | cons record rest ih =>
    intro h hlen
    have h3 : record.length = 3 := hlen record (List.mem_cons_self _ _)
    obtain ⟨h', hload, hnon, husers⟩ :=
      ih { users := h.users.set (recordKey record) (record.getD 2 ""), nonces := h.nonces }
        (fun r hr => hlen r (List.mem_cons_of_mem _ hr))
    refine ⟨h', ?_, hnon, ?_⟩
    · simp only [loadRecords, h3, ne_eq, not_true_eq_false, if_false]
      exact hload
    · intro key
      rw [husers key]
      simp only [lastDigestOfKey, lastDigestWhere]
      cases lastDigestWhere (fun r => recordKey r = key) rest with
      | some v => rfl
      | none =>
        by_cases hk : recordKey record = key
        · simp [GoMap.set, hk]
        · have hk' : ¬ key = recordKey record := fun e => hk e.symm
          simp [GoMap.set, hk, hk']

theorem lastDigestWhere_ne_none (p : List String → Prop) [DecidablePred p]
    (records : List (List String)) :
    lastDigestWhere p records ≠ none ↔ ∃ r ∈ records, p r := by
  induction records with
  | nil => simp [lastDigestWhere]
  | cons record rest ih =>
    cases hl : lastDigestWhere p rest with
    | some v =>
      rw [hl] at ih
      obtain ⟨r, hm, hr⟩ := ih.mp (by simp)
      simp only [lastDigestWhere, hl]
      exact ⟨fun _ => ⟨r, List.mem_cons_of_mem _ hm, hr⟩, fun _ => by simp⟩
    | none =>
      rw [hl] at ih
      have hex : ¬ ∃ r ∈ rest, p r := fun hx => (ih.mpr hx) rfl
      simp only [lastDigestWhere, hl]
      by_cases hk : p record
      · simp only [hk, if_true]
        exact ⟨fun _ => ⟨record, List.mem_cons_self _ _, hk⟩, fun _ => by simp⟩
      · simp only [hk, if_false]
        constructor
        · intro hne
          exact absurd rfl hne
        · rintro ⟨r, hm, hr⟩
          rcases List.mem_cons.mp hm with heq | hm'
          · exact absurd (heq ▸ hr) hk
          · exact absurd ⟨r, hm', hr⟩ hex

theorem lastDigestWhere_congr (p q : List String → Prop) [DecidablePred p] [DecidablePred q]
    (records : List (List String)) (hpq : ∀ r ∈ records, (p r ↔ q r)) :
    lastDigestWhere p records = lastDigestWhere q records := by
  induction records with
  | nil => rfl
  | cons record rest ih =>
    have ih' := ih (fun r hm => hpq r (List.mem_cons_of_mem _ hm))
    have hrec := hpq record (List.mem_cons_self _ _)
    simp only [lastDigestWhere, ih']
    cases lastDigestWhere q rest with
    | some v => rfl
    | none =>
      by_cases hp : p record
      · simp only [hp, hrec.mp hp, if_true]
      · have hq : ¬ q record := fun hx => hp (hrec.mpr hx)
        simp only [hp, hq, if_false]

/-- Joining with `:` is injective on pairs whose first components contain no `:`. -/
theorem join_chars_inj (u1 : List Char) :
    ∀ (u2 r1 r2 : List Char), ':' ∉ u1 → ':' ∉ u2 →
      u1 ++ ':' :: r1 = u2 ++ ':' :: r2 → u1 = u2 ∧ r1 = r2 := by
  induction u1 with
  | nil =>
    intro u2 r1 r2 _ h2 heq
    cases u2 with
    | nil =>
      simp only [List.nil_append, List.cons.injEq, true_and] at heq
      exact ⟨rfl, heq⟩
    | cons c cs =>
      simp only [List.nil_append, List.cons_append, List.cons.injEq] at heq
      exact absurd (heq.1 ▸ List.mem_cons_self _ _) h2
  | cons c cs ih =>
    intro u2 r1 r2 h1 h2 heq
    cases u2 with
    | nil =>
      simp only [List.nil_append, List.cons_append, List.cons.injEq] at heq
      exact absurd (heq.1 ▸ List.mem_cons_self _ _) h1
    | cons c' cs' =>
      simp only [List.cons_append, List.cons.injEq] at heq
      obtain ⟨hc, hrest⟩ := heq
      obtain ⟨e1, e2⟩ := ih cs' r1 r2 (fun hm => h1 (List.mem_cons_of_mem _ hm))
        (fun hm => h2 (List.mem_cons_of_mem _ hm)) hrest
      exact ⟨by rw [hc, e1], e2⟩

/-- The key `user:realm` determines user and realm when the users contain no `:`. -/
theorem join_inj (u1 r1 u2 r2 : String) (h1 : hasColon u1 = false) (h2 : hasColon u2 = false)
    (heq : u1 ++ ":" ++ r1 = u2 ++ ":" ++ r2) : u1 = u2 ∧ r1 = r2 := by
  have hd := congrArg String.data heq
  simp only [String.data_append, List.append_assoc] at hd
  have hd' : u1.data ++ ':' :: r1.data = u2.data ++ ':' :: r2.data := hd
  simp only [hasColon, List.contains_eq_any_beq, List.any_eq_false, beq_iff_eq] at h1 h2
  have m1 : ':' ∉ u1.data := fun hm => h1 ':' hm rfl
  have m2 : ':' ∉ u2.data := fun hm => h2 ':' hm rfl
  obtain ⟨e1, e2⟩ := join_chars_inj u1.data u2.data r1.data r2.data m1 m2 hd'
  exact ⟨String.ext e1, String.ext e2⟩

/-- When no username contains `:`, the last record under the key `user:realm` is the
last record with that username and realm. -/
theorem lastDigestOfKey_join (records : List (List String)) (user realm : String)
    (hu : hasColon user = false) (hr : ∀ r ∈ records, hasColon (r.getD 0 "") = false) :
    lastDigestOfKey records (user ++ ":" ++ realm) = lastDigest records user realm := by
  apply lastDigestWhere_congr
  intro r hm
  constructor
  · intro hk
    exact join_inj _ _ _ _ (hr r hm) hu hk
  · rintro ⟨e1, e2⟩
    simp only [recordKey, e1, e2]

/-! ## Lemmas on the csv reader -/

theorem readSlice_cons (c : Char) (cs : List Char) (hc : c ≠ '\n') :
    readSlice (c :: cs) = (c :: (readSlice cs).1, (readSlice cs).2) := by
  simp only [readSlice, hc, if_false]

theorem readSlice_line (content rest : List Char) (hc : '\n' ∉ content) :
    readSlice (content ++ '\n' :: rest) = (content ++ ['\n'], rest) := by
  induction content with
  | nil => simp [readSlice]
  | cons c cs ih =>
    have hne : c ≠ '\n' := fun e => hc (e ▸ List.mem_cons_self _ _)
    have ih' := ih (fun hm => hc (List.mem_cons_of_mem _ hm))
    rw [List.cons_append, readSlice_cons c _ hne, ih']
    rfl

theorem readSlice_length_le (input : List Char) :
    (readSlice input).2.length ≤ input.length := by
  induction input with
  | nil => simp [readSlice]
  | cons c cs ih =>
    by_cases hc : c = '\n'
    · simp [readSlice, hc]
    · rw [readSlice_cons c cs hc]
      simp only [List.length_cons]
      omega

theorem readSlice_length (input : List Char) (hne : input ≠ []) :
    (readSlice input).2.length < input.length := by
  cases input with
  | nil => exact absurd rfl hne
  | cons c cs =>
    by_cases hc : c = '\n'
    · simp [readSlice, hc]
    · rw [readSlice_cons c cs hc]
      have hle := readSlice_length_le cs
      simp only [List.length_cons]
      omega

/-- The loop that looks for the next record line gives the same result for every fuel
above the length of the input. -/
theorem nextRecordLine_fuel (f1 : Nat) :
    ∀ (f2 : Nat) (input : List Char), input.length < f1 → input.length < f2 →
      nextRecordLine f1 input = nextRecordLine f2 input := by
  induction f1 with
  | zero =>
    intro f2 input h1 _
    omega
  | succ a ih =>
    intro f2 input h1 h2
    obtain ⟨b, rfl⟩ : ∃ b, f2 = b + 1 := ⟨f2 - 1, by omega⟩
    by_cases hin : input = []
    · subst hin
      rfl
    · have hlen := readSlice_length input hin
      have hrest : (readLine input).2.2 = (readSlice input).2 := rfl
      have hrec := ih b (readLine input).2.2 (by rw [hrest]; omega) (by rw [hrest]; omega)
      simp only [nextRecordLine, hrec]

theorem get?_append_pair_fst (c0 : List Char) (x y : Char) :
    (c0 ++ [x, y]).get? c0.length = some x := by
  induction c0 with
  | nil => rfl
  | cons c cs ih => simpa using ih

theorem get?_append_pair_snd (c0 : List Char) (x y : Char) :
    (c0 ++ [x, y]).get? (c0.length + 1) = some y := by
  induction c0 with
  | nil => rfl
  | cons c cs ih => simpa using ih

/-- The normalisation of a final `\r\n` in `readLine`. -/
theorem normalize_crlf (c0 : List Char) (x : Char) :
    (if (c0 ++ [x, '\n']).length ≥ 2 ∧
        (c0 ++ [x, '\n']).get? ((c0 ++ [x, '\n']).length - 2) = some '\r' ∧
        (c0 ++ [x, '\n']).get? ((c0 ++ [x, '\n']).length - 1) = some '\n' then
      (c0 ++ [x, '\n']).take ((c0 ++ [x, '\n']).length - 2) ++ ['\n']
    else c0 ++ [x, '\n']) = (if x = '\r' then c0 else c0 ++ [x]) ++ ['\n'] := by
  have hlen : (c0 ++ [x, '\n']).length = c0.length + 2 := by simp
  have h2 : c0.length + 2 - 2 = c0.length := by omega
  have h1 : c0.length + 2 - 1 = c0.length + 1 := by omega
  rw [hlen, h2, h1, get?_append_pair_fst, get?_append_pair_snd]
  by_cases hx : x = '\r'
  · subst hx
    simp
  · simp [hx]

/-- The method `readLine` on a line that ends in a line feed: a `\r` before the line
feed is dropped. -/
theorem readLine_line (content rest : List Char) (hc : '\n' ∉ content) :
    readLine (content ++ '\n' :: rest) = (dropCR content ++ ['\n'], false, rest) := by
  have hlast : (content ++ ['\n']).getLast? = some '\n' := by simp
  have hne : content ++ ['\n'] ≠ [] := by simp
  have hline1 : (if content ++ ['\n'] ≠ [] ∧ (content ++ ['\n']).getLast? ≠ some '\n' ∧
      (content ++ ['\n']).getLast? = some '\r' then (content ++ ['\n']).dropLast
      else content ++ ['\n']) = content ++ ['\n'] := by
    rw [hlast]
    simp
  simp only [readLine, readSlice_line _ rest hc, hline1, dropCR]
  rcases List.eq_nil_or_concat content with hnil | ⟨c0, x, hcx⟩
  · subst hnil
    simp
  · have hcx' : content = c0 ++ [x] := by rw [hcx, List.concat_eq_append]
    subst hcx'
    have happ : c0 ++ [x] ++ ['\n'] = c0 ++ [x, '\n'] := by simp
    rw [happ, normalize_crlf]
    by_cases hx : x = '\r'
    · subst hx
      simp
    · simp [hx]

theorem readSlice_noNL (content : List Char) (hc : '\n' ∉ content) :
    readSlice content = (content, []) := by
  induction content with
  | nil => rfl
  | cons c cs ih =>
    have hne : c ≠ '\n' := fun e => hc (e ▸ List.mem_cons_self _ _)
    rw [readSlice_cons c cs hne, ih (fun hm => hc (List.mem_cons_of_mem _ hm))]

theorem dropCR_subset (line : List Char) (c : Char) (hc : c ∈ dropCR line) : c ∈ line := by
  unfold dropCR at hc
  split at hc
  · exact List.mem_of_mem_dropLast hc
  · exact hc

/-- The method `readLine` on a last line that the text ends without a line feed: a
final `\r` is dropped. -/
theorem readLine_eof (content : List Char) (hc : '\n' ∉ content) (hne : content ≠ []) :
    readLine content = (dropCR content, false, []) := by
  have hlast : content.getLast? ≠ some '\n' := by
    intro hl
    exact hc (List.mem_of_getLast?_eq_some hl)
  have hline1 : (if content ≠ [] ∧ content.getLast? ≠ some '\n' ∧
      content.getLast? = some '\r' then content.dropLast else content) = dropCR content := by
    unfold dropCR
    by_cases hr : content.getLast? = some '\r'
    · simp [hne, hr]
    · simp [hr]
  have hnorm : ¬ ((dropCR content).length ≥ 2 ∧
      (dropCR content).get? ((dropCR content).length - 2) = some '\r' ∧
      (dropCR content).get? ((dropCR content).length - 1) = some '\n') := by
    rintro ⟨_, _, h3⟩
    exact hc (dropCR_subset content _ (List.get?_mem h3))
  simp only [readLine, readSlice_noNL content hc, hline1, hnorm, if_false, hne, decide_False]

theorem dropCR_append_CR (content : List Char) : dropCR (content ++ ['\r']) = content := by
  simp [dropCR]

theorem getLast?_append_newline (l : List Char) : (l ++ ['\n']).getLast? = some '\n' := by
  simp

theorem dropWhile_isSpace_pad (pad tl : List Char) (hpad : ∀ c ∈ pad, isSpace c = true)
    (htl : ∀ c, tl.head? = some c → isSpace c = false) :
    (pad ++ tl).dropWhile isSpace = tl := by
  induction pad with
  | nil =>
    cases tl with
    | nil => rfl
    | cons c cs =>
      have hc := htl c rfl
      simp [List.dropWhile, hc]
  | cons p ps ih =>
    have hp := hpad p (List.mem_cons_self _ _)
    have ih' := ih (fun c hm => hpad c (List.mem_cons_of_mem _ hm))
    rw [List.cons_append, List.dropWhile_cons]
    simp only [hp, if_true, ih']

theorem dropWhile_isSpace_all (pad : List Char) (hpad : ∀ c ∈ pad, isSpace c = true) :
    pad.dropWhile isSpace = [] := by
  have h := dropWhile_isSpace_pad pad [] hpad (fun c hc => by simp at hc)
  simpa using h

theorem takeWhile_until (sep : Char) (fld tl : List Char) (hf : ∀ c ∈ fld, c ≠ sep) :
    (fld ++ sep :: tl).takeWhile (fun c => decide (c ≠ sep)) = fld ∧
    (fld ++ sep :: tl).dropWhile (fun c => decide (c ≠ sep)) = sep :: tl := by
  induction fld with
  | nil => simp [List.takeWhile, List.dropWhile]
  | cons c cs ih =>
    have hc : c ≠ sep := hf c (List.mem_cons_self _ _)
    obtain ⟨ih1, ih2⟩ := ih (fun x hm => hf x (List.mem_cons_of_mem _ hm))
    have hdec : decide (c ≠ sep) = true := by simp [hc]
    rw [List.cons_append, List.takeWhile_cons, List.dropWhile_cons]
    simp only [hdec, if_true, ih1, ih2, and_self]

theorem takeWhile_all (sep : Char) (fld : List Char) (hf : ∀ c ∈ fld, c ≠ sep) :
    fld.takeWhile (fun c => decide (c ≠ sep)) = fld ∧
    fld.dropWhile (fun c => decide (c ≠ sep)) = [] := by
  induction fld with
  | nil => simp
  | cons c cs ih =>
    have hc : c ≠ sep := hf c (List.mem_cons_self _ _)
    obtain ⟨ih1, ih2⟩ := ih (fun x hm => hf x (List.mem_cons_of_mem _ hm))
    have hdec : decide (c ≠ sep) = true := by simp [hc]
    rw [List.takeWhile_cons, List.dropWhile_cons]
    simp only [hdec, if_true, ih1, ih2, and_self]

/-- One round of `parseField` on a plain field that is followed by a colon: the field,
without the whitespace before it, is added to the record. -/
theorem parseField_plain_colon (fuel : Nat) (pad fld tl input : List Char)
    (fields : List (List Char)) (hpad : ∀ c ∈ pad, isSpace c = true) (hfld : plainField fld) :
    parseField (fuel + 1) none (pad ++ fld ++ ':' :: tl) input fields
      = parseField fuel none tl input (fields ++ [fld]) := by
  have hhead : ∀ c, (fld ++ ':' :: tl).head? = some c → isSpace c = false := by
    intro c hc
    cases fld with
    | nil =>
      simp only [List.nil_append, List.head?_cons, Option.some.injEq] at hc
      rw [← hc]
      decide
    | cons x xs =>
      simp only [List.cons_append, List.head?_cons, Option.some.injEq] at hc
      exact hfld.2 c (by simp [hc])
  have hdrop : (pad ++ fld ++ ':' :: tl).dropWhile isSpace = fld ++ ':' :: tl := by
    rw [List.append_assoc]
    exact dropWhile_isSpace_pad pad _ hpad hhead
  have hq : (fld ++ ':' :: tl).head? ≠ some '"' := by
    cases fld with
    | nil => simp
    | cons x xs =>
      have hx := (hfld.1 x (List.mem_cons_self _ _)).1
      simp [hx]
  obtain ⟨ht, hd⟩ := takeWhile_until ':' fld tl (fun c hm => (hfld.1 c hm).2.1)
  have hnq : '"' ∉ fld := fun hm => (hfld.1 '"' hm).1 rfl
  simp only [parseField, hdrop, hq, if_false, ht, hd, hnq]

/-- The last round of `parseField` on a plain field that ends the line: the field,
without the whitespace before it and the newline after it, ends the record. -/
theorem parseField_plain_last (fuel : Nat) (pad fld input : List Char)
    (fields : List (List Char)) (hpad : ∀ c ∈ pad, isSpace c = true) (hfld : plainField fld) :
    parseField (fuel + 1) none (pad ++ fld ++ ['\n']) input fields
      = .ok (fields ++ [fld], input) := by
  cases fld with
  | nil =>
    have hall : ∀ c ∈ pad ++ ['\n'], isSpace c = true := by
      intro c hm
      rcases List.mem_append.mp hm with h1 | h2
      · exact hpad c h1
      · simp only [List.mem_singleton] at h2
        rw [h2]
        decide
    have hdrop : (pad ++ [] ++ ['\n']).dropWhile isSpace = [] := by
      rw [List.append_nil]
      exact dropWhile_isSpace_all _ hall
    simp only [parseField, hdrop]
    simp [lengthNL]
  | cons x xs =>
    have hhead : ∀ c, (x :: xs ++ ['\n']).head? = some c → isSpace c = false := by
      intro c hc
      simp only [List.cons_append, List.head?_cons, Option.some.injEq] at hc
      exact hfld.2 c (by simp [hc])
    have hdrop : (pad ++ (x :: xs) ++ ['\n']).dropWhile isSpace = x :: xs ++ ['\n'] := by
      rw [List.append_assoc]
      exact dropWhile_isSpace_pad pad _ hpad hhead
    have hx := (hfld.1 x (List.mem_cons_self _ _)).1
    have hq : (x :: xs ++ ['\n']).head? ≠ some '"' := by simp [hx]
    have hnc : ∀ c ∈ x :: xs ++ ['\n'], c ≠ ':' := by
      intro c hm
      rcases List.mem_append.mp hm with h1 | h2
      · exact (hfld.1 c h1).2.1
      · simp only [List.mem_singleton] at h2
        rw [h2]
        decide
    obtain ⟨ht, hd⟩ := takeWhile_all ':' _ hnc
    have hlast : (x :: xs ++ ['\n']).getLast? = some '\n' :=
      getLast?_append_newline (x :: xs)
    have hnl : lengthNL (x :: xs ++ ['\n']) = 1 := by simp only [lengthNL, hlast, if_true]
    have htake : (x :: xs ++ ['\n']).take ((x :: xs ++ ['\n']).length - 1) = x :: xs := by
      simp
    have hnq : '"' ∉ x :: xs := fun hm => (hfld.1 '"' hm).1 rfl
    simp only [parseField, hdrop, hq, if_false, ht, hd, hnl, htake, hnq]

/-- The last round of `parseField` on a plain field that ends a line without line feed:
the field, without the whitespace before it, ends the record. -/
theorem parseField_plain_end (fuel : Nat) (pad fld input : List Char)
    (fields : List (List Char)) (hpad : ∀ c ∈ pad, isSpace c = true) (hfld : plainField fld) :
    parseField (fuel + 1) none (pad ++ fld) input fields = .ok (fields ++ [fld], input) := by
  cases fld with
  | nil =>
    have hdrop : (pad ++ []).dropWhile isSpace = [] := by
      rw [List.append_nil]
      exact dropWhile_isSpace_all _ hpad
    simp only [parseField, hdrop]
    simp [lengthNL]
  | cons x xs =>
    have hhead : ∀ c, (x :: xs).head? = some c → isSpace c = false := hfld.2
    have hdrop : (pad ++ (x :: xs)).dropWhile isSpace = x :: xs :=
      dropWhile_isSpace_pad pad _ hpad hhead
    have hx := (hfld.1 x (List.mem_cons_self _ _)).1
    have hq : (x :: xs).head? ≠ some '"' := by simp [hx]
    obtain ⟨ht, hd⟩ := takeWhile_all ':' (x :: xs) (fun c hm => (hfld.1 c hm).2.1)
    have hlast : (x :: xs).getLast? ≠ some '\n' := by
      intro hl
      exact (hfld.1 _ (List.mem_of_getLast?_eq_some hl)).2.2 rfl
    have hnl : lengthNL (x :: xs) = 0 := by simp only [lengthNL, hlast, if_false]
    have htake : (x :: xs).take ((x :: xs).length - 0) = x :: xs := by simp
    have hnq : '"' ∉ x :: xs := fun hm => (hfld.1 '"' hm).1 rfl
    simp only [parseField, hdrop, hq, if_false, ht, hd, hnl, htake, hnq]

/-- The loop `parseField` on a record line of three plain fields, with or without a line
feed at its end. -/
theorem parseField_record (fuel : Nat) (pad1 user pad2 realm pad3 digest input : List Char)
    (e : LineEnd)
    (h1 : ∀ c ∈ pad1, isSpace c = true) (h2 : ∀ c ∈ pad2, isSpace c = true)
    (h3 : ∀ c ∈ pad3, isSpace c = true)
    (hu : plainField user) (hr : plainField realm) (hd : plainField digest) :
    parseField (fuel + 3) none
        (pad1 ++ user ++ ':' :: (pad2 ++ realm ++ ':' :: (pad3 ++ digest ++ e.seen))) input []
      = .ok ([user, realm, digest], input) := by
  rw [parseField_plain_colon (fuel + 2) pad1 user _ input [] h1 hu,
    parseField_plain_colon (fuel + 1) pad2 realm _ input _ h2 hr]
  by_cases hn : e.isNewline = true
  · simp only [LineEnd.seen, hn, if_true]
    rw [parseField_plain_last fuel pad3 digest input _ h3 hd]
    rfl
  · simp only [LineEnd.seen, hn, if_false, List.append_nil, Bool.false_eq_true]
    rw [parseField_plain_end fuel pad3 digest input _ h3 hd]
    rfl

theorem getLast?_append_singleton (l : List Char) (c : Char) :
    (l ++ [c]).getLast? = some c := by
  simp

/-- The method `readLine` on a line of the source with its line end: the reader sees the
line without the `\r` of its end, with a line feed if the line has one. -/
theorem readLine_source (content rest : List Char) (e : LineEnd) (hc : '\n' ∉ content)
    (hne : content ≠ []) (hrest : e.isNewline = false → rest = []) :
    readLine (content ++ e.render ++ rest)
      = ((if e.hasCR = true then content else dropCR content) ++ e.seen, false, rest) := by
  cases e with
  | lf =>
    have hshape : content ++ LineEnd.lf.render ++ rest = content ++ '\n' :: rest := by
      simp [LineEnd.render]
    rw [hshape, readLine_line content rest hc]
    simp [LineEnd.hasCR, LineEnd.seen, LineEnd.isNewline]
  | crlf =>
    have hshape : content ++ LineEnd.crlf.render ++ rest
        = (content ++ ['\r']) ++ '\n' :: rest := by
      simp [LineEnd.render]
    have hc' : '\n' ∉ content ++ ['\r'] := by
      intro hm
      rcases List.mem_append.mp hm with h1 | h2
      · exact hc h1
      · simp only [List.mem_singleton] at h2
        exact absurd h2 (by decide)
    rw [hshape, readLine_line _ rest hc', dropCR_append_CR]
    simp [LineEnd.hasCR, LineEnd.seen, LineEnd.isNewline]
  | eof =>
    have hr := hrest rfl
    subst hr
    have hshape : content ++ LineEnd.eof.render ++ [] = content := by
      simp [LineEnd.render]
    rw [hshape, readLine_eof content hc hne]
    simp [LineEnd.hasCR, LineEnd.seen, LineEnd.isNewline]
  | crEof =>
    have hr := hrest rfl
    subst hr
    have hshape : content ++ LineEnd.crEof.render ++ [] = content ++ ['\r'] := by
      simp [LineEnd.render]
    have hc' : '\n' ∉ content ++ ['\r'] := by
      intro hm
      rcases List.mem_append.mp hm with h1 | h2
      · exact hc h1
      · simp only [List.mem_singleton] at h2
        exact absurd h2 (by decide)
    rw [hshape, readLine_eof _ hc' (by simp), dropCR_append_CR]
    simp [LineEnd.hasCR, LineEnd.seen, LineEnd.isNewline]

theorem head?_dropCR_cons (c : Char) (t tl : List Char) (hcr : c ≠ '\r') :
    (dropCR (c :: t) ++ tl).head? = some c := by
  cases t with
  | nil =>
    have hl : ¬ ([c].getLast? = some '\r') := by simp [hcr]
    simp only [dropCR, hl, if_false, List.cons_append, List.head?_cons]
  | cons y ys =>
    by_cases hl : (c :: y :: ys).getLast? = some '\r'
    · simp only [dropCR, hl, if_true, List.dropLast_cons₂, List.cons_append, List.head?_cons]
    · simp only [dropCR, hl, if_false, List.cons_append, List.head?_cons]

theorem nextRecordLine_nil (fuel : Nat) : nextRecordLine fuel [] = none := by
  cases fuel <;> rfl

/-- A comment line is skipped. -/
theorem nextRecordLine_comment (fuel : Nat) (text rest : List Char) (e : LineEnd)
    (ht : '\n' ∉ text) (hrest : e.isNewline = false → rest = []) :
    nextRecordLine (fuel + 1) (SourceLine.render (.comment text e) ++ rest)
      = nextRecordLine fuel rest := by
  have hshape : SourceLine.render (.comment text e) ++ rest
      = ('#' :: text) ++ e.render ++ rest := by
    simp [SourceLine.render]
  have hc : '\n' ∉ '#' :: text := by
    intro hm
    rcases List.mem_cons.mp hm with h1 | h2
    · exact absurd h1 (by decide)
    · exact ht h2
  have hhead : ((if e.hasCR = true then '#' :: text else dropCR ('#' :: text)) ++ e.seen).head?
      = some '#' := by
    by_cases hcr : e.hasCR = true
    · simp only [hcr, if_true, List.cons_append, List.head?_cons]
    · simp only [hcr, if_false, Bool.false_eq_true]
      exact head?_dropCR_cons '#' text _ (by decide)
  rw [hshape]
  simp only [nextRecordLine, readLine_source _ rest e hc (by simp) hrest, hhead, if_true]
  simp

/-- Dropping a final `\r` of a line acts on the last part of the line. -/
theorem dropCR_append (b t : List Char) (hb : t = [] → b.getLast? ≠ some '\r') :
    dropCR (b ++ t) = b ++ dropCR t := by
  unfold dropCR
  rcases List.eq_nil_or_concat t with hnil | ⟨t0, y, hty⟩
  · subst hnil
    simp [hb rfl]
  · have hty' : t = t0 ++ [y] := by rw [hty, List.concat_eq_append]
    subst hty'
    have h1 : (b ++ (t0 ++ [y])).getLast? = some y := by
      rw [← List.append_assoc]
      simp
    have h2 : (t0 ++ [y]).getLast? = some y := by simp
    have h3 : (b ++ (t0 ++ [y])).dropLast = b ++ t0 := by
      rw [← List.append_assoc]
      simp
    have h4 : (t0 ++ [y]).dropLast = t0 := by simp
    rw [h1, h2, h3, h4]
    by_cases hy : y = '\r'
    · simp [hy]
    · simp [hy]

/-- Dropping a final `\r` of padding followed by a field that does not end in `\r`
leaves padding followed by the same field. -/
theorem dropCR_pad_field (pad fld : List Char) (hpad : padding pad)
    (hfld : fld.getLast? ≠ some '\r') :
    ∃ pad', (∀ c ∈ pad', isSpace c = true) ∧ dropCR (pad ++ fld) = pad' ++ fld := by
  unfold dropCR
  by_cases hl : (pad ++ fld).getLast? = some '\r'
  · rcases List.eq_nil_or_concat fld with hnil | ⟨f0, y, hfy⟩
    · subst hnil
      refine ⟨pad.dropLast, fun c hm => (hpad c (List.mem_of_mem_dropLast hm)).1, ?_⟩
      simp only [List.append_nil] at hl ⊢
      simp only [hl, if_true]
    · have hfy' : fld = f0 ++ [y] := by rw [hfy, List.concat_eq_append]
      subst hfy'
      have h1 : (pad ++ (f0 ++ [y])).getLast? = some y := by
        rw [← List.append_assoc]
        simp
      rw [h1] at hl
      rw [getLast?_append_singleton] at hfld
      exact absurd hl hfld
  · exact ⟨pad, fun c hm => (hpad c hm).1, by simp only [hl, if_false]⟩

/-- A record line is the next record line; the reader sees it with its fields, with
whitespace before them, and with its line feed if it has one. -/
theorem nextRecordLine_record (fuel : Nat) (pad1 user pad2 realm pad3 digest rest : List Char)
    (e : LineEnd)
    (hwf : (SourceLine.record pad1 user pad2 realm pad3 digest e).WellFormed)
    (hrest : e.isNewline = false → rest = []) :
    ∃ pad3', (∀ c ∈ pad3', isSpace c = true) ∧
      nextRecordLine (fuel + 1)
          (SourceLine.render (.record pad1 user pad2 realm pad3 digest e) ++ rest)
        = some (pad1 ++ user ++ ':' :: (pad2 ++ realm ++ ':' :: (pad3' ++ digest ++ e.seen)),
            rest) := by
  obtain ⟨h1, h2, h3, hu, hr, hd, hhash, hcr⟩ := hwf
  have hshape : SourceLine.render (.record pad1 user pad2 realm pad3 digest e) ++ rest
      = (pad1 ++ user ++ ':' :: (pad2 ++ realm ++ [':']) ++ (pad3 ++ digest)) ++ e.render
          ++ rest := by
    simp [SourceLine.render]
  have hnl : '\n' ∉ pad1 ++ user ++ ':' :: (pad2 ++ realm ++ [':']) ++ (pad3 ++ digest) := by
    intro hm
    simp only [List.mem_append, List.mem_cons, List.mem_singleton, List.not_mem_nil,
      or_false] at hm
    have hcolon : ('\n' : Char) ≠ ':' := by decide
    casesm* _ ∨ _
    · exact (h1 _ ‹_›).2 rfl
    · exact (hu.1 _ ‹_›).2.2 rfl
    · exact hcolon ‹_›
    · exact (h2 _ ‹_›).2 rfl
    · exact (hr.1 _ ‹_›).2.2 rfl
    · exact hcolon ‹_›
    · exact (h3 _ ‹_›).2 rfl
    · exact (hd.1 _ ‹_›).2.2 rfl
  have hne : pad1 ++ user ++ ':' :: (pad2 ++ realm ++ [':']) ++ (pad3 ++ digest) ≠ [] := by
    simp
  have hseen : ∃ pad3', (∀ c ∈ pad3', isSpace c = true) ∧
      (if e.hasCR = true then
          pad1 ++ user ++ ':' :: (pad2 ++ realm ++ [':']) ++ (pad3 ++ digest)
        else dropCR (pad1 ++ user ++ ':' :: (pad2 ++ realm ++ [':']) ++ (pad3 ++ digest)))
        = pad1 ++ user ++ ':' :: (pad2 ++ realm ++ [':']) ++ (pad3' ++ digest) := by
    by_cases hcre : e.hasCR = true
    · exact ⟨pad3, fun c hm => (h3 c hm).1, by simp only [hcre, if_true]⟩
    · have hcre' : e.hasCR = false := by simpa using hcre
      obtain ⟨pad3', hp3, hnorm⟩ := dropCR_pad_field pad3 digest h3 (hcr hcre')
      have hb : pad3 ++ digest = [] →
          (pad1 ++ user ++ ':' :: (pad2 ++ realm ++ [':'])).getLast? ≠ some '\r' := by
        intro _
        have hlast : (pad1 ++ user ++ ':' :: (pad2 ++ realm ++ [':'])).getLast? = some ':' := by
          have e1 : pad1 ++ user ++ ':' :: (pad2 ++ realm ++ [':'])
              = (pad1 ++ user ++ ':' :: (pad2 ++ realm)) ++ [':'] := by simp
          rw [e1]
          exact getLast?_append_singleton _ _
        rw [hlast]
        decide
      refine ⟨pad3', hp3, ?_⟩
      simp only [hcre, if_false, Bool.false_eq_true]
      rw [dropCR_append _ _ hb, hnorm]
  obtain ⟨pad3', hp3, hline⟩ := hseen
  have hfinal : pad1 ++ user ++ ':' :: (pad2 ++ realm ++ [':']) ++ (pad3' ++ digest) ++ e.seen
      = pad1 ++ user ++ ':' :: (pad2 ++ realm ++ ':' :: (pad3' ++ digest ++ e.seen)) := by
    simp
  refine ⟨pad3', hp3, ?_⟩
  rw [hshape]
  simp only [nextRecordLine, readLine_source _ rest e hnl hne hrest, hline, hfinal]
  have hhead : (pad1 ++ user ++ ':' :: (pad2 ++ realm ++ ':' :: (pad3' ++ digest ++ e.seen))).head?
      ≠ some '#' := by
    cases hpu : pad1 ++ user with
    | nil => simp
    | cons x xs =>
      rw [hpu] at hhash
      simpa using hhash
  have hlen : (pad1 ++ user ++ ':' :: (pad2 ++ realm ++ ':' :: (pad3' ++ digest ++ e.seen))).length
      ≠ lengthNL (pad1 ++ user ++ ':' :: (pad2 ++ realm ++ ':' :: (pad3' ++ digest ++ e.seen))) := by
    have hle : lengthNL (pad1 ++ user ++ ':' :: (pad2 ++ realm ++ ':' :: (pad3' ++ digest ++ e.seen)))
        ≤ 1 := by
      simp only [lengthNL]
      split <;> omega
    simp only [List.length_append, List.length_cons] at hle ⊢
    omega
  rw [if_neg hhead]
  simp only [hlen, and_false, if_false, Bool.false_eq_true]

theorem render_ne_nil (l : SourceLine) : l.render ≠ [] := by
  cases l <;> simp [SourceLine.render]

theorem length_le_render (src : List SourceLine) :
    src.length ≤ (src.map SourceLine.render).flatten.length := by
  induction src with
  | nil => simp
  | cons l rest ih =>
    have hpos : 0 < l.render.length := List.length_pos.mpr (render_ne_nil l)
    simp only [List.map_cons, List.flatten_cons, List.length_append, List.length_cons]
    omega

/-- The loop of `ReadAll` on a well-formed source returns the records of its record
lines, in order. -/
theorem readAllLoop_render (src : List SourceLine) (hwf : sourceWellFormed src) :
    ∀ (fuel fieldsPerRecord : Nat) (records : List (List String)),
      src.length < fuel → (fieldsPerRecord = 0 ∨ fieldsPerRecord = 3) →
      readAllLoop fuel fieldsPerRecord (src.map SourceLine.render).flatten records
        = .ok (records ++ src.filterMap SourceLine.fields) := by
  induction src with
  | nil =>
    intro fuel fpr records hfuel _
    obtain ⟨f, rfl⟩ : ∃ f, fuel = f + 1 := ⟨fuel - 1, by simp at hfuel; omega⟩
    simp [readAllLoop, nextRecordLine_nil]
  | cons l rest ih =>
    intro fuel fpr records hfuel hfpr
    obtain ⟨f, rfl⟩ : ∃ f, fuel = f + 1 := ⟨fuel - 1, by omega⟩
    obtain ⟨hwfl, hend, hwfrest⟩ := hwf
    have ih' := ih hwfrest
    have hrest : l.lineEnd.isNewline = false → (rest.map SourceLine.render).flatten = [] := by
      intro hno
      have hnil : rest = [] := by
        by_contra hne
        rw [hend hne] at hno
        cases hno
      rw [hnil]
      rfl
    simp only [List.length_cons] at hfuel
    rw [List.map_cons, List.flatten_cons]
    cases l with
    | comment text e =>
      have hnext : nextRecordLine
          ((SourceLine.render (.comment text e) ++ (rest.map SourceLine.render).flatten).length + 1)
          (SourceLine.render (.comment text e) ++ (rest.map SourceLine.render).flatten)
          = nextRecordLine ((rest.map SourceLine.render).flatten.length + 1)
              (rest.map SourceLine.render).flatten := by
        rw [nextRecordLine_comment _ text _ e hwfl hrest]
        apply nextRecordLine_fuel
        · have hpos : 0 < (SourceLine.render (.comment text e)).length :=
            List.length_pos.mpr (render_ne_nil _)
          simp only [List.length_append]
          omega
        · omega
      have hstep : readAllLoop (f + 1) fpr
          (SourceLine.render (.comment text e) ++ (rest.map SourceLine.render).flatten) records
          = readAllLoop (f + 1) fpr (rest.map SourceLine.render).flatten records := by
        simp only [readAllLoop, hnext]
      rw [hstep, ih' (f + 1) fpr records (by omega) hfpr]
      simp [SourceLine.fields]
    | record pad1 user pad2 realm pad3 digest e =>
      obtain ⟨pad3', hp3, hnext⟩ := nextRecordLine_record
        ((SourceLine.render (.record pad1 user pad2 realm pad3 digest e)
          ++ (rest.map SourceLine.render).flatten).length)
        pad1 user pad2 realm pad3 digest (rest.map SourceLine.render).flatten e hwfl hrest
      obtain ⟨h1, h2, _, hu, hr, hd, _, _⟩ := hwfl
      have hparse : ∀ k : Nat, 3 ≤ k →
          parseField k none
            (pad1 ++ user ++ ':' :: (pad2 ++ realm ++ ':' :: (pad3' ++ digest ++ e.seen)))
            (rest.map SourceLine.render).flatten []
          = .ok ([user, realm, digest], (rest.map SourceLine.render).flatten) := by
        intro k hk
        obtain ⟨j, rfl⟩ : ∃ j, k = j + 3 := ⟨k - 3, by omega⟩
        exact parseField_record j pad1 user pad2 realm pad3' digest _ e
          (fun c hc => (h1 c hc).1) (fun c hc => (h2 c hc).1) hp3 hu hr hd
      have hlen3 : 3 ≤ (pad1 ++ user ++ ':' :: (pad2 ++ realm ++ ':' ::
          (pad3' ++ digest ++ e.seen))).length + (rest.map SourceLine.render).flatten.length + 1 := by
        simp only [List.length_append, List.length_cons]
        omega
      have hrec := ih' f 3 (records ++ [[String.mk user, String.mk realm, String.mk digest]])
        (by omega) (Or.inr rfl)
      rcases hfpr with h0 | h3
      · subst h0
        simp only [readAllLoop, hnext, hparse _ hlen3, gt_iff_lt, lt_self_iff_false, if_false,
          List.length_cons, List.length_nil, List.map_cons, List.map_nil]
        rw [hrec]
        simp [SourceLine.fields]
      · subst h3
        simp only [readAllLoop, hnext, hparse _ hlen3, gt_iff_lt, Nat.lt_add_left_iff_pos,
          Nat.ofNat_pos, if_true, List.length_cons, List.length_nil, ne_eq, not_true_eq_false,
          if_false, List.map_cons, List.map_nil]
        simp only [Nat.reduceAdd, Nat.reduceLT, if_true, not_true_eq_false, if_false] at hrec ⊢
        rw [hrec]
        simp [SourceLine.fields]

/-- The method `ReadAll` on a well-formed source returns the records of its record
lines, in order. -/
theorem csvReadAll_render (src : List SourceLine) (hwf : sourceWellFormed src) :
    csvReadAll (renderSource src) = .ok (src.filterMap SourceLine.fields) := by
  have hlen := length_le_render src
  have h := readAllLoop_render src hwf ((src.map SourceLine.render).flatten.length + 1) 0 []
    (by omega) (Or.inl rfl)
  simpa [csvReadAll, renderSource, String.length] using h

/-- The function `newDigestAuth` on a well-formed source loads the records of its record
lines. -/
theorem newDigestAuthOfText_render (src : List SourceLine) (hwf : sourceWellFormed src) :
    newDigestAuthOfText (renderSource src)
      = loadOfRecords (src.filterMap SourceLine.fields) := by
  simp only [newDigestAuthOfText, csvReadAll_render src hwf, loadOfRecords]

/-- Replacing a line of a well-formed source by a well-formed line with the same line
end gives a well-formed source. -/
theorem sourceWellFormed_replace (a b : List SourceLine) (l l' : SourceLine)
    (hwf : sourceWellFormed (a ++ l :: b)) (hl' : l'.WellFormed)
    (hend : l'.lineEnd = l.lineEnd) : sourceWellFormed (a ++ l' :: b) := by
  induction a with
  | nil =>
    obtain ⟨_, h2, h3⟩ := hwf
    exact ⟨hl', fun hne => by rw [hend]; exact h2 hne, h3⟩
  | cons x xs ih =>
    obtain ⟨h1, h2, h3⟩ := hwf
    exact ⟨h1, fun _ => h2 (by simp), ih h3⟩

/-! ## Theorems -/

/-- C1: `validate` returns true exactly when the credential of (user, realm) is stored
with digest `ha1`, the nonce is registered, `nc` parses as a base-16 64-bit unsigned
integer `c`, `c` differs from the stored last counter, and the response equals
`hash(ha1:nonce:nc:cnonce:qop:hash(method:uri))`; otherwise it returns false. -/
theorem validate_true_iff (hash : String → String) (now : Time) (h : DigestAuth)
    (d : DigestAuthData) :
    ((validate hash now h d).1 = true ↔
      ∃ ha1 info c,
        h.users (d.user ++ ":" ++ d.realm) = some ha1 ∧
        h.nonces d.nonce = some info ∧
        ParseUint d.nc 16 64 = .ok c ∧
        c ≠ info.lastNonceCounter ∧
        d.response = expectedResponse hash ha1 d) ∧
    ((validate hash now h d).1 = false ↔
      ¬ ∃ ha1 info c,
        h.users (d.user ++ ":" ++ d.realm) = some ha1 ∧
        h.nonces d.nonce = some info ∧
        ParseUint d.nc 16 64 = .ok c ∧
        c ≠ info.lastNonceCounter ∧
        d.response = expectedResponse hash ha1 d) := by
  have key : (validate hash now h d).1 = true ↔
      ∃ ha1 info c,
        h.users (d.user ++ ":" ++ d.realm) = some ha1 ∧
        h.nonces d.nonce = some info ∧
        ParseUint d.nc 16 64 = .ok c ∧
        c ≠ info.lastNonceCounter ∧
        d.response = expectedResponse hash ha1 d := by
    constructor
    · intro ht
      obtain ⟨ha1, info, c, hu, hn, hp, hc, hr, _⟩ := validate_true_inv ht
      exact ⟨ha1, info, c, hu, hn, hp, hc, hr⟩
    · rintro ⟨ha1, info, c, hu, hn, hp, hc, hr⟩
      rw [validate_accept hu hn hp hc hr]
  refine ⟨key, ?_⟩
  rw [← key]
  cases (validate hash now h d).1 <;> simp


/-- C2: round trip.  If the store holds `ha1` for (user, realm) and `newNonce` has just
returned the token `N`, the request for that user and realm with nonce `N`, counter
string "00000001" and the response `hash(ha1:N:nc:cnonce:qop:hash(method:uri))` is
accepted, for every method, uri, qop and cnonce. -/
theorem roundtrip_fresh_nonce (hash : String → String) (t1 t2 now : Time) (fuel : Nat)
    (rnd : Nat → Nat) (h0 h1 : DigestAuth) (N user realm ha1 method uri qop cnonce : String)
    (hcred : h0.users (user ++ ":" ++ realm) = some ha1)
    (hnew : newNonce hash t1 t2 fuel rnd h0 = some (N, h1)) :
    (validate hash now h1
      (signedRequest hash ha1 user realm N method uri qop "00000001" cnonce)).1 = true := by
  obtain ⟨_, hh1⟩ := newNonce_some hash t1 t2 fuel rnd h0 h1 N hnew
  subst hh1
  have hu : (addNonce t1 t2 h0 N).users
      ((signedRequest hash ha1 user realm N method uri qop "00000001" cnonce).user ++ ":" ++
        (signedRequest hash ha1 user realm N method uri qop "00000001" cnonce).realm)
      = some ha1 := hcred
  have hn : (addNonce t1 t2 h0 N).nonces
      (signedRequest hash ha1 user realm N method uri qop "00000001" cnonce).nonce
      = some { issued := t1, lastUsed := t2, lastNonceCounter := 0 } :=
    GoMap.set_same _ _ _
  rw [validate_accept hu hn parseUint_00000001 (show (1 : Nat) ≠ 0 by decide)
    (expectedResponse_signedRequest hash ha1 user realm N method uri qop "00000001" cnonce)]

/-- Witness of C2 on the scenario: alice / example.com, GET /private, auth, abc123. -/
theorem roundtrip_fresh_nonce_witness :
    sampleStore.users ("alice" ++ ":" ++ "example.com") = some "ha1" ∧
    newNonce sampleHash 5 6 1 (fun _ => 0) sampleStore
      = some (sampleNonce, addNonce 5 6 sampleStore sampleNonce) ∧
    (validate sampleHash 7 (addNonce 5 6 sampleStore sampleNonce)
      (sampleRequest "00000001")).1 = true :=
  ⟨by decide, rfl,
    roundtrip_fresh_nonce sampleHash 5 6 7 1 (fun _ => 0) sampleStore
      (addNonce 5 6 sampleStore sampleNonce) sampleNonce "alice" "example.com" "ha1"
      "GET" "/private" "auth" "abc123" (by decide) rfl⟩

/-- C3: replay rejection.  After `validate` has accepted a request, the identical request
is rejected on the resulting state, and so is every request on that nonce whose counter
string parses to the accepted counter, whatever its other fields. -/
theorem replay_rejected (hash : String → String) (now now' : Time) (h : DigestAuth)
    (d : DigestAuthData) (hacc : (validate hash now h d).1 = true) :
    (validate hash now' (validate hash now h d).2 d).1 = false ∧
    ∀ (d' : DigestAuthData) (c : Nat),
      d'.nonce = d.nonce → ParseUint d.nc 16 64 = .ok c → ParseUint d'.nc 16 64 = .ok c →
      (validate hash now' (validate hash now h d).2 d').1 = false := by
  obtain ⟨ha1, info, c, hu, hn, hp, hc, hr, hv⟩ := validate_true_inv hacc
  have key : ∀ (d' : DigestAuthData), d'.nonce = d.nonce → ParseUint d'.nc 16 64 = .ok c →
      (validate hash now' (validate hash now h d).2 d').1 = false := by
    intro d' hd' hp'
    rw [hv]
    apply validate_same_counter hash now' _ d' (usedNonce info now c)
    · rw [hd']
      exact GoMap.set_same _ _ _
    · exact hp'
  refine ⟨key d rfl hp, ?_⟩
  intro d' c' hd' hpc hpc'
  rw [hp] at hpc
  cases hpc
  exact key d' hd' hpc'

/-- Witness of C3: the accepted request of the scenario is rejected when replayed. -/
theorem replay_rejected_witness :
    (validate sampleHash 7 (addNonce 5 6 sampleStore sampleNonce)
      (sampleRequest "00000001")).1 = true ∧
    (validate sampleHash 8 (validate sampleHash 7 (addNonce 5 6 sampleStore sampleNonce)
      (sampleRequest "00000001")).2 (sampleRequest "00000001")).1 = false :=
  ⟨by decide,
    (replay_rejected sampleHash 7 8 (addNonce 5 6 sampleStore sampleNonce)
      (sampleRequest "00000001") (by decide)).1⟩

/-- C4 (the code at the failing input): on a nonce `N` of alice, the requests with
counters 1 and 2 are accepted in turn and leave the stored counter at 2; the request
with counter 1 and the digest for counter 1 is then accepted again, and the stored
counter goes back from 2 to 1. -/
theorem counter_moves_backward (hash : String → String) (N : String) (t0 t1 t2 t3 : Time) :
    validate hash t1 (addNonce t0 t0 sampleStore N) (aliceRequest hash N "00000001")
      = (true, aliceState N { issued := t0, lastUsed := t1, lastNonceCounter := 1 }) ∧
    validate hash t2 (aliceState N { issued := t0, lastUsed := t1, lastNonceCounter := 1 })
        (aliceRequest hash N "00000002")
      = (true, aliceState N { issued := t0, lastUsed := t2, lastNonceCounter := 2 }) ∧
    validate hash t3 (aliceState N { issued := t0, lastUsed := t2, lastNonceCounter := 2 })
        (aliceRequest hash N "00000001")
      = (true, aliceState N { issued := t0, lastUsed := t3, lastNonceCounter := 1 }) := by
  have hp1 : ParseUint "00000001" 16 64 = .ok 1 := rfl
  have hp2 : ParseUint "00000002" 16 64 = .ok 2 := rfl
  have h0 : addNonce t0 t0 sampleStore N
      = aliceState N { issued := t0, lastUsed := t0, lastNonceCounter := 0 } := rfl
  refine ⟨?_, ?_, ?_⟩
  · rw [h0]
    exact validate_aliceState hash N _ t1 "00000001" 1 hp1 (show (1 : Nat) ≠ 0 by decide)
  · exact validate_aliceState hash N _ t2 "00000002" 2 hp2 (show (2 : Nat) ≠ 1 by decide)
  · exact validate_aliceState hash N _ t3 "00000001" 1 hp1 (show (1 : Nat) ≠ 2 by decide)

/-- C5: forward progress.  After `validate` has accepted counter `c` on a nonce, a
request on the same nonce with a greater counter `c'`, a known (user, realm) and the
digest for `c'` is accepted, and the stored counter becomes `c'`. -/
theorem counter_forward (hash : String → String) (now now' : Time) (h : DigestAuth)
    (d d' : DigestAuthData) (c c' : Nat) (ha1 : String)
    (hacc : (validate hash now h d).1 = true)
    (hpc : ParseUint d.nc 16 64 = .ok c)
    (hnonce : d'.nonce = d.nonce)
    (hpc' : ParseUint d'.nc 16 64 = .ok c')
    (hlt : c < c')
    (hu' : h.users (d'.user ++ ":" ++ d'.realm) = some ha1)
    (hr' : d'.response = expectedResponse hash ha1 d') :
    (validate hash now' (validate hash now h d).2 d').1 = true ∧
    ((validate hash now' (validate hash now h d).2 d').2.nonces d.nonce).map
      (fun info => info.lastNonceCounter) = some c' := by
  obtain ⟨ha0, info, c0, hu, hn, hp, hc, hr, hv⟩ := validate_true_inv hacc
  have hcc : c0 = c := by
    rw [hp] at hpc
    exact Except.ok.inj hpc
  rw [hv]
  have hn' : (h.nonces.set d.nonce (usedNonce info now c0)) d'.nonce
      = some (usedNonce info now c0) := by
    rw [hnonce]
    exact GoMap.set_same _ _ _
  have hne : c' ≠ (usedNonce info now c0).lastNonceCounter := by
    simp only [usedNonce]
    omega
  rw [@validate_accept hash now' ⟨h.users, h.nonces.set d.nonce (usedNonce info now c0)⟩
    d' ha1 (usedNonce info now c0) c' hu' hn' hpc' hne hr']
  refine ⟨rfl, ?_⟩
  simp only [hnonce]
  rw [GoMap.set_same]
  simp [usedNonce]

/-- Witness of C5: counter 2 after counter 1 on the scenario. -/
theorem counter_forward_witness :
    (validate sampleHash 8 (validate sampleHash 7 (addNonce 5 6 sampleStore sampleNonce)
      (sampleRequest "00000001")).2 (sampleRequest "00000002")).1 = true ∧
    ((validate sampleHash 8 (validate sampleHash 7 (addNonce 5 6 sampleStore sampleNonce)
      (sampleRequest "00000001")).2 (sampleRequest "00000002")).2.nonces
        (sampleRequest "00000001").nonce).map
      (fun info => info.lastNonceCounter) = some 2 :=
  counter_forward sampleHash 7 8 (addNonce 5 6 sampleStore sampleNonce)
    (sampleRequest "00000001") (sampleRequest "00000002") 1 2 "ha1"
    (by decide) rfl rfl rfl (by decide) (by decide) rfl

/-- C6: rejection is atomic.  If `validate` returns false, the state after the call is
the state before it: same credential map, same registered nonces, and the same issued,
lastUsed and lastNonceCounter in every nonce record. -/
theorem reject_atomic (hash : String → String) (now : Time) (h : DigestAuth)
    (d : DigestAuthData) (hrej : (validate hash now h d).1 = false) :
    (validate hash now h d).2 = h ∧
    (validate hash now h d).2.users = h.users ∧
    ∀ k : String, (validate hash now h d).2.nonces k = h.nonces k := by
  have hst := validate_false_state hrej
  refine ⟨hst, ?_, ?_⟩
  · rw [hst]
  · intro k
    rw [hst]

/-- Witness of C6: a fresh counter with a wrong digest leaves the state as it was. -/
theorem reject_atomic_witness :
    (validate sampleHash 7 (addNonce 5 6 sampleStore sampleNonce)
      { sampleRequest "00000001" with response := "wrong" }).1 = false ∧
    (validate sampleHash 7 (addNonce 5 6 sampleStore sampleNonce)
      { sampleRequest "00000001" with response := "wrong" }).2
      = addNonce 5 6 sampleStore sampleNonce :=
  ⟨by decide,
    (reject_atomic sampleHash 7 (addNonce 5 6 sampleStore sampleNonce)
      { sampleRequest "00000001" with response := "wrong" } (by decide)).1⟩

/-- C7: effect of acceptance.  If `validate` returns true, then afterwards the record
of the request's nonce has the parsed counter as lastNonceCounter, `now` as lastUsed and
its old issued time; every other nonce record is unchanged; a token is registered after
the call exactly when it was registered before; and the credential map is unchanged. -/
theorem accept_effect (hash : String → String) (now : Time) (h : DigestAuth)
    (d : DigestAuthData) (hacc : (validate hash now h d).1 = true) :
    (∃ info c,
      h.nonces d.nonce = some info ∧
      ParseUint d.nc 16 64 = .ok c ∧
      (validate hash now h d).2.nonces d.nonce
        = some { issued := info.issued, lastUsed := now, lastNonceCounter := c }) ∧
    (∀ k : String, k ≠ d.nonce → (validate hash now h d).2.nonces k = h.nonces k) ∧
    (∀ k : String, ((validate hash now h d).2.nonces k).isSome = (h.nonces k).isSome) ∧
    (validate hash now h d).2.users = h.users := by
  obtain ⟨ha1, info, c, hu, hn, hp, hc, hr, hv⟩ := validate_true_inv hacc
  rw [hv]
  refine ⟨⟨info, c, hn, hp, GoMap.set_same _ _ _⟩, ?_, ?_, rfl⟩
  · intro k hk
    exact GoMap.set_other _ _ _ _ hk
  · intro k
    by_cases hk : k = d.nonce
    · subst hk
      simp [GoMap.set_same, hn]
    · simp [GoMap.set_other _ _ _ _ hk]

/-- Witness of C7 on the accepted request of the scenario. -/
theorem accept_effect_witness :
    (validate sampleHash 7 (addNonce 5 6 sampleStore sampleNonce)
      (sampleRequest "00000001")).1 = true ∧
    (validate sampleHash 7 (addNonce 5 6 sampleStore sampleNonce)
      (sampleRequest "00000001")).2.users = (addNonce 5 6 sampleStore sampleNonce).users :=
  ⟨by decide,
    (accept_effect sampleHash 7 (addNonce 5 6 sampleStore sampleNonce)
      (sampleRequest "00000001") (by decide)).2.2.2⟩

/-- C8: unknown nonce.  A request whose nonce is not in the nonce map is rejected,
whatever its other fields; in particular every request is rejected on a store that
`newDigestAuth` has just returned. -/
theorem unknown_nonce_rejected (hash : String → String) (now : Time) (d : DigestAuthData) :
    (∀ h : DigestAuth, h.nonces d.nonce = none → (validate hash now h d).1 = false) ∧
    (∀ (records : List (List String)) (h : DigestAuth),
      newDigestAuth (.ok records) = .ok h → (validate hash now h d).1 = false) := by
  refine ⟨fun h hn => validate_nonce_absent hash now h d hn, ?_⟩
  intro records h hload
  apply validate_nonce_absent
  have hn := loadRecords_nonces records _ h hload
  rw [hn]
  rfl

/-- Witness of C8: the correctly signed request of the scenario, on a store in which
its nonce was never issued. -/
theorem unknown_nonce_rejected_witness :
    sampleStore.nonces (sampleRequest "00000001").nonce = none ∧
    (validate sampleHash 7 sampleStore (sampleRequest "00000001")).1 = false ∧
    newDigestAuth (.ok [["alice", "example.com", "ha1"]]) = .ok sampleStore ∧
    (validate sampleHash 7 sampleStore (sampleRequest "00000002")).1 = false :=
  ⟨rfl,
    (unknown_nonce_rejected sampleHash 7 (sampleRequest "00000001")).1 sampleStore rfl,
    rfl,
    (unknown_nonce_rejected sampleHash 7 (sampleRequest "00000002")).2
      [["alice", "example.com", "ha1"]] sampleStore rfl⟩

/-- C9: unknown credential.  A request whose key `user:realm` has no entry in the
credential map is rejected, whatever its nonce, counter and response. -/
theorem unknown_credential_rejected (hash : String → String) (now : Time) (h : DigestAuth)
    (d : DigestAuthData) (hu : h.users (d.user ++ ":" ++ d.realm) = none) :
    (validate hash now h d).1 = false := by
  simp [validate, hu]

/-- Witness of C9: bob is not in the store of the scenario. -/
theorem unknown_credential_rejected_witness :
    (addNonce 5 6 sampleStore sampleNonce).users ("bob" ++ ":" ++ "example.com") = none ∧
    (validate sampleHash 7 (addNonce 5 6 sampleStore sampleNonce)
      (signedRequest sampleHash "ha1" "bob" "example.com" sampleNonce "GET" "/private" "auth"
        "00000001" "abc123")).1 = false :=
  ⟨by decide,
    unknown_credential_rejected sampleHash 7 (addNonce 5 6 sampleStore sampleNonce)
      (signedRequest sampleHash "ha1" "bob" "example.com" sampleNonce "GET" "/private" "auth"
        "00000001" "abc123") (by decide)⟩

/-- C10: malformed counter.  `validate` returns false for every request whose `nc` is
the empty string, contains a character outside `0-9`, `a-f`, `A-F`, or is a hexadecimal
numeral of value `2^64` or more; for a hexadecimal numeral below `2^64` the parsed
counter is the value of the numeral, which leading zeros do not change and in which a
letter counts the same in either case ("00000001" and "1" both parse to 1). -/
theorem malformed_counter (hash : String → String) (now : Time) (h : DigestAuth)
    (d : DigestAuthData) :
    (d.nc = "" → (validate hash now h d).1 = false) ∧
    ((∃ c ∈ d.nc.data, isHexDigit c = false) → (validate hash now h d).1 = false) ∧
    (isHexNumeral d.nc → 2 ^ 64 ≤ hexValue d.nc.data → (validate hash now h d).1 = false) ∧
    (isHexNumeral d.nc → hexValue d.nc.data < 2 ^ 64 →
      ParseUint d.nc 16 64 = .ok (hexValue d.nc.data) ∧
      (∀ k : Nat, ParseUint (String.mk (List.replicate k '0') ++ d.nc) 16 64
        = .ok (hexValue d.nc.data)) ∧
      ParseUint (d.nc.map Char.toUpper) 16 64 = .ok (hexValue d.nc.data) ∧
      ParseUint (d.nc.map Char.toLower) 16 64 = .ok (hexValue d.nc.data)) ∧
    ParseUint "00000001" 16 64 = .ok 1 ∧ ParseUint "1" 16 64 = .ok 1 := by
  refine ⟨?_, ?_, ?_, ?_, rfl, rfl⟩
  · intro he
    obtain ⟨e, hp⟩ := ParseUint_of_not_isHexNumeral d.nc (Or.inl he)
    exact validate_parse_error hash now h d e hp
  · intro hbad
    obtain ⟨e, hp⟩ := ParseUint_of_not_isHexNumeral d.nc (Or.inr hbad)
    exact validate_parse_error hash now h d e hp
  · intro hnum hbig
    exact validate_parse_error hash now h d _ ((ParseUint_of_isHexNumeral d.nc hnum).2 hbig)
  · intro hnum hlt
    have hne : d.nc.data ≠ [] := by
      intro h0
      apply hnum.1
      cases hd : d.nc with
      | mk l =>
        rw [hd] at h0
        simp only at h0
        rw [h0]
    refine ⟨(ParseUint_of_isHexNumeral d.nc hnum).1 hlt, ?_, ?_, ?_⟩
    · intro k
      obtain ⟨hz1, hz2⟩ := hexValue_zeros k d.nc.data hnum.2
      have := ParseUint_mk (List.replicate k '0' ++ d.nc.data) _ hz1 hz2 hlt (by simp [hne])
      have happ : String.mk (List.replicate k '0') ++ d.nc
          = String.mk (List.replicate k '0' ++ d.nc.data) := by
        apply String.ext
        simp
      rw [happ]
      exact this
    · obtain ⟨hu1, hu2⟩ := hexValue_map Char.toUpper hexDigit_toUpper d.nc.data hnum.2
      rw [String.map_eq]
      exact ParseUint_mk _ _ hu1 hu2 hlt (by simp [hne])
    · obtain ⟨hl1, hl2⟩ := hexValue_map Char.toLower hexDigit_toLower d.nc.data hnum.2
      rw [String.map_eq]
      exact ParseUint_mk _ _ hl1 hl2 hlt (by simp [hne])

/-- Witness of C10: the empty string, "0x1" and `2^64` written in hexadecimal are
rejected, and "fF" parses to 255. -/
theorem malformed_counter_witness :
    (validate sampleHash 7 (addNonce 5 6 sampleStore sampleNonce) (sampleRequest "")).1
      = false ∧
    (validate sampleHash 7 (addNonce 5 6 sampleStore sampleNonce) (sampleRequest "0x1")).1
      = false ∧
    (validate sampleHash 7 (addNonce 5 6 sampleStore sampleNonce)
      (sampleRequest "10000000000000000")).1 = false ∧
    ParseUint "fF" 16 64 = .ok 255 :=
  ⟨(malformed_counter sampleHash 7 (addNonce 5 6 sampleStore sampleNonce)
      (sampleRequest "")).1 rfl,
    (malformed_counter sampleHash 7 (addNonce 5 6 sampleStore sampleNonce)
      (sampleRequest "0x1")).2.1 ⟨'x', by decide, by decide⟩,
    (malformed_counter sampleHash 7 (addNonce 5 6 sampleStore sampleNonce)
      (sampleRequest "10000000000000000")).2.2.1 ⟨by decide, by decide⟩ (by decide),
    ((malformed_counter sampleHash 7 (addNonce 5 6 sampleStore sampleNonce)
      (sampleRequest "fF")).2.2.2.1 ⟨by decide, by decide⟩ (by decide)).1⟩

/-- C11 (as stated, refuted): a call of `newNonce` whose two readings of the clock are 5
and 6 returns a token whose record has `issued = 5` and `lastUsed = 6`, so issued and
lastUsed are not one and the same current time. -/
theorem newNonce_issued_ne_lastUsed :
    ∃ N h' info,
      newNonce sampleHash 5 6 1 (fun _ => 0) sampleStore = some (N, h') ∧
      h'.nonces N = some info ∧ info.issued ≠ info.lastUsed :=
  ⟨sampleNonce, addNonce 5 6 sampleStore sampleNonce,
    { issued := 5, lastUsed := 6, lastNonceCounter := 0 }, rfl, rfl,
    by decide⟩

/-- C11 (amended): issuance.  A token returned by `newNonce` was not registered before
the call; afterwards the registry is the old one plus that token, mapped to a record with
`lastNonceCounter = 0`, `issued` the first and `lastUsed` the second reading of the clock;
every record registered before and the credential map are unchanged.  Candidates that
are registered are skipped: the call returns the first candidate that is not registered,
as soon as there is one. -/
theorem newNonce_issue (hash : String → String) (t1 t2 : Time) (rnd : Nat → Nat)
    (h : DigestAuth) :
    (∀ (fuel : Nat) (N : String) (h' : DigestAuth),
      newNonce hash t1 t2 fuel rnd h = some (N, h') →
        h.nonces N = none ∧
        h'.nonces N = some { issued := t1, lastUsed := t2, lastNonceCounter := 0 } ∧
        (∀ k : String, k ≠ N → h'.nonces k = h.nonces k) ∧
        (∀ (k : String) (v : NonceInfo), h.nonces k = some v → h'.nonces k = some v) ∧
        h'.users = h.users) ∧
    (∀ k : Nat, (∀ j, j < k → h.nonces (candidate hash rnd j) ≠ none) →
      h.nonces (candidate hash rnd k) = none →
      ∀ fuel : Nat, k < fuel →
        newNonce hash t1 t2 fuel rnd h
          = some (candidate hash rnd k, addNonce t1 t2 h (candidate hash rnd k))) := by
  refine ⟨?_, fun k hbusy hfresh fuel hfuel =>
    newNonce_first_fresh hash t1 t2 h k rnd fuel hbusy hfresh hfuel⟩
  intro fuel N h' hnew
  obtain ⟨hfresh, hh'⟩ := newNonce_some hash t1 t2 fuel rnd h h' N hnew
  subst hh'
  refine ⟨hfresh, GoMap.set_same _ _ _, fun k hk => GoMap.set_other _ _ _ _ hk, ?_, rfl⟩
  intro k v hkv
  have hk : k ≠ N := by
    intro hkN
    rw [hkN, hfresh] at hkv
    cases hkv
  exact (GoMap.set_other _ _ _ _ hk).trans hkv

/-- Witness of C11: on the store of the scenario the first candidate is unregistered and
is returned; on the state that holds it, it is skipped. -/
theorem newNonce_issue_witness :
    (sampleStore.nonces sampleNonce = none ∧
      (addNonce 5 6 sampleStore sampleNonce).users = sampleStore.users) ∧
    newNonce sampleHash 5 6 1 (fun _ => 0) sampleStore
      = some (candidate sampleHash (fun _ => 0) 0,
          addNonce 5 6 sampleStore (candidate sampleHash (fun _ => 0) 0)) :=
  ⟨⟨((newNonce_issue sampleHash 5 6 (fun _ => 0) sampleStore).1 1 sampleNonce
      (addNonce 5 6 sampleStore sampleNonce) rfl).1,
    ((newNonce_issue sampleHash 5 6 (fun _ => 0) sampleStore).1 1 sampleNonce
      (addNonce 5 6 sampleStore sampleNonce) rfl).2.2.2.2⟩,
    (newNonce_issue sampleHash 5 6 (fun _ => 0) sampleStore).2 0
      (fun j hj => absurd hj (Nat.not_lt_zero j)) rfl 1 (by decide)⟩

/-- C12: expiry sweep.  `expireNonces` at time `now` removes a record exactly when its
lastUsed is strictly earlier than `now` minus 12 hours, whatever its issued time: such a
record is gone, a record with `now - lastUsed` at most 12 hours is kept as it is, no
token is added, and the credential map is unchanged; the loop gives this result in
whatever order it visits the registered tokens. -/
theorem expireNonces_sweep (now : Time) (h : DigestAuth) :
    (∀ (k : String) (v : NonceInfo), h.nonces k = some v →
      v.lastUsed < now - 12 * 3600 * 1000000000 → (expireNonces now h).nonces k = none) ∧
    (∀ (k : String) (v : NonceInfo), h.nonces k = some v →
      now - v.lastUsed ≤ 12 * 3600 * 1000000000 → (expireNonces now h).nonces k = some v) ∧
    (∀ k : String, h.nonces k = none → (expireNonces now h).nonces k = none) ∧
    (expireNonces now h).users = h.users ∧
    (∀ keys : List String, (∀ k : String, h.nonces k ≠ none → k ∈ keys) →
      expireLoop (now + (-maxNonceInactiveInterval)) keys h.nonces
        = (expireNonces now h).nonces) := by
  have hlim : now + (-maxNonceInactiveInterval) = now - 12 * 3600 * 1000000000 := by
    simp only [maxNonceInactiveInterval, hour]
    ring
  refine ⟨?_, ?_, ?_, rfl, ?_⟩
  · intro k v hk hold
    rw [expireNonces_apply, hk, hlim]
    simp only [hold, if_true]
  · intro k v hk hfresh
    rw [expireNonces_apply, hk, hlim]
    have hnot : ¬ v.lastUsed < now - 12 * 3600 * 1000000000 := by linarith
    simp only [hnot, if_false]
  · intro k hk
    rw [expireNonces_apply, hk]
  · intro keys hkeys
    funext k
    rw [expireLoop_apply, expireNonces_apply]
    by_cases hmem : k ∈ keys
    · simp only [hmem, if_true]
    · have hnone : h.nonces k = none := by
        by_contra hne
        exact hmem (hkeys k hne)
      simp only [hmem, if_false, hnone]

/-- Witness of C12: a record last used 12 hours and one nanosecond before the sweep is
removed, a record last used exactly 12 hours before it is kept. -/
theorem expireNonces_sweep_witness :
    (expireNonces 43200000000001 (addNonce 0 0 sampleStore sampleNonce)).nonces sampleNonce
      = none ∧
    (expireNonces 43200000000000 (addNonce 0 0 sampleStore sampleNonce)).nonces sampleNonce
      = some { issued := 0, lastUsed := 0, lastNonceCounter := 0 } :=
  ⟨(expireNonces_sweep 43200000000001 (addNonce 0 0 sampleStore sampleNonce)).1
      sampleNonce { issued := 0, lastUsed := 0, lastNonceCounter := 0 } rfl (by decide),
    (expireNonces_sweep 43200000000000 (addNonce 0 0 sampleStore sampleNonce)).2.1
      sampleNonce { issued := 0, lastUsed := 0, lastNonceCounter := 0 } rfl (by decide)⟩

/-- C13: expiry then validation.  When the record of the request's nonce was last used
more than 12 hours before the sweep, every call of `validate` for that nonce after the
sweep returns false, whatever the request's other fields, also after any number of other
`validate` calls. -/
theorem expired_nonce_rejected (hash : String → String) (tSweep : Time) (h : DigestAuth)
    (d : DigestAuthData) (info : NonceInfo)
    (hn : h.nonces d.nonce = some info)
    (hold : 12 * 3600 * 1000000000 < tSweep - info.lastUsed) :
    (∀ now : Time, (validate hash now (expireNonces tSweep h) d).1 = false) ∧
    (∀ (calls : List (Time × DigestAuthData)) (now : Time),
      (validate hash now (validateAll hash calls (expireNonces tSweep h)) d).1 = false) := by
  have hgone : (expireNonces tSweep h).nonces d.nonce = none := by
    rw [expireNonces_apply, hn]
    have hlt : info.lastUsed < tSweep + (-maxNonceInactiveInterval) := by
      simp only [maxNonceInactiveInterval, hour]
      linarith
    simp only [hlt, if_true]
  refine ⟨fun now => validate_nonce_absent hash now _ d hgone, ?_⟩
  intro calls now
  exact validate_nonce_absent hash now _ d
    (validateAll_nonces_none hash calls _ d.nonce hgone)

/-- Witness of C13: the correctly signed request of the scenario, 13 hours after the
nonce was last used and swept. -/
theorem expired_nonce_rejected_witness :
    (validate sampleHash 46800000000001
      (expireNonces 46800000000000 (addNonce 0 0 sampleStore sampleNonce))
      (sampleRequest "00000001")).1 = false :=
  (expired_nonce_rejected sampleHash 46800000000000 (addNonce 0 0 sampleStore sampleNonce)
    (sampleRequest "00000001") { issued := 0, lastUsed := 0, lastNonceCounter := 0 }
    rfl (by decide)).1 46800000000001

/-- C14: malformed load is atomic.  When some record has not exactly 3 fields, wherever
it stands in the list, `newDigestAuth` returns the format error and no store; an error
of the reader is returned as it is, also without a store. -/
theorem malformed_load_fails (records : List (List String))
    (hbad : ∃ r ∈ records, r.length ≠ 3) :
    newDigestAuth (.ok records) = .error "invalid htdigest file format" ∧
    (∀ h : DigestAuth, newDigestAuth (.ok records) ≠ .ok h) ∧
    (∀ err : String, newDigestAuth (.error err) = .error err) := by
  have herr : newDigestAuth (.ok records) = .error "invalid htdigest file format" :=
    loadRecords_bad records _ hbad
  refine ⟨herr, ?_, fun err => rfl⟩
  intro h hok
  rw [herr] at hok
  cases hok

/-- Witness of C14: a record of 2 fields after a well-formed one. -/
theorem malformed_load_fails_witness :
    newDigestAuth (.ok [["alice", "example.com", "ha1"], ["bob", "example.com"]])
      = .error "invalid htdigest file format" :=
  (malformed_load_fails [["alice", "example.com", "ha1"], ["bob", "example.com"]]
    ⟨["bob", "example.com"], by decide, by decide⟩).1

/-- C15 (as stated, refuted): the records `a:b / c / X` and `a / b:c / Y` have 3 fields
each and load; the store then answers the lookup for username `a:b` and realm `c` with
`Y`, while the last record with that username and realm has digest `X`. -/
theorem load_last_pair_refuted :
    (∀ r ∈ [["a:b", "c", "X"], ["a", "b:c", "Y"]], r.length = 3) ∧
    ∃ h : DigestAuth,
      newDigestAuth (.ok [["a:b", "c", "X"], ["a", "b:c", "Y"]]) = .ok h ∧
      h.users ("a:b" ++ ":" ++ "c") = some "Y" ∧
      lastDigest [["a:b", "c", "X"], ["a", "b:c", "Y"]] "a:b" "c" = some "X" ∧
      h.users ("a:b" ++ ":" ++ "c") ≠ lastDigest [["a:b", "c", "X"], ["a", "b:c", "Y"]] "a:b" "c" :=
  ⟨by decide,
    { users := (GoMap.empty.set "a:b:c" "X").set "a:b:c" "Y", nonces := GoMap.empty },
    rfl, by decide, by decide, by decide⟩

/-- C15 (amended): successful load.  On records of 3 fields each, `newDigestAuth`
succeeds; the store maps every key `username:realm` to the digest of the last record
whose username and realm join to that key, and has an entry for exactly the keys of the
records; when neither the looked-up username nor a username of the records contains `:`,
the entry of (username, realm) is the digest of the last record with that username and
realm, and exists exactly when there is such a record; the nonce registry is empty. -/
theorem load_success (records : List (List String)) (hlen : ∀ r ∈ records, r.length = 3) :
    ∃ h : DigestAuth,
      newDigestAuth (.ok records) = .ok h ∧
      (∀ key : String, h.users key = lastDigestOfKey records key) ∧
      (∀ key : String, h.users key ≠ none ↔ ∃ r ∈ records, recordKey r = key) ∧
      (∀ user realm : String, hasColon user = false →
        (∀ r ∈ records, hasColon (r.getD 0 "") = false) →
        h.users (user ++ ":" ++ realm) = lastDigest records user realm ∧
        (h.users (user ++ ":" ++ realm) ≠ none ↔
          ∃ r ∈ records, r.getD 0 "" = user ∧ r.getD 1 "" = realm)) ∧
      h.nonces = GoMap.empty := by
  obtain ⟨h, hload, hnon, husers⟩ :=
    loadRecords_ok records { users := GoMap.empty, nonces := GoMap.empty } hlen
  have hkey : ∀ key : String, h.users key = lastDigestOfKey records key := by
    intro key
    rw [husers key]
    cases lastDigestOfKey records key with
    | some v => rfl
    | none => rfl
  refine ⟨h, hload, hkey, ?_, ?_, hnon⟩
  · intro key
    rw [hkey key]
    exact lastDigestWhere_ne_none _ records
  · intro user realm hu hr
    have hpair := lastDigestOfKey_join records user realm hu hr
    rw [hkey, hpair]
    exact ⟨rfl, lastDigestWhere_ne_none _ records⟩

/-- Witness of C15: alice is loaded twice, the second digest is the one stored. -/
theorem load_success_witness :
    ∃ h : DigestAuth,
      newDigestAuth (.ok [["alice", "example.com", "old"], ["alice", "example.com", "ha1"]])
        = .ok h ∧
      h.users ("alice" ++ ":" ++ "example.com") = some "ha1" ∧ h.nonces = GoMap.empty := by
  obtain ⟨h, hload, _, _, hpair, hnon⟩ :=
    load_success [["alice", "example.com", "old"], ["alice", "example.com", "ha1"]]
      (by decide)
  refine ⟨h, hload, ?_, hnon⟩
  rw [(hpair "alice" "example.com" (by decide) (by decide)).1]
  decide

/-- C18: sentinel collision.  On a nonce whose record still has `lastNonceCounter = 0`,
as every record made by `newNonce` has, a request whose `nc` parses to 0 is rejected and
the state is left as it was, also when its (user, realm) is known and its response is
the digest for that `nc`; "0" and "00000000" parse to 0. -/
theorem zero_counter_rejected (hash : String → String) (now : Time) (h : DigestAuth)
    (d : DigestAuthData) (info : NonceInfo)
    (hn : h.nonces d.nonce = some info) (hzero : info.lastNonceCounter = 0)
    (hp : ParseUint d.nc 16 64 = .ok 0) :
    validate hash now h d = (false, h) ∧
    (validate hash now h d).2.nonces d.nonce = some info ∧
    (∀ (t1 t2 : Time) (fuel : Nat) (rnd : Nat → Nat) (h0 : DigestAuth),
      newNonce hash t1 t2 fuel rnd h0 = some (d.nonce, h) →
        h.nonces d.nonce = some { issued := t1, lastUsed := t2, lastNonceCounter := 0 }) ∧
    ParseUint "0" 16 64 = .ok 0 ∧ ParseUint "00000000" 16 64 = .ok 0 := by
  have hrej : (validate hash now h d).1 = false := by
    apply validate_same_counter hash now h d info hn
    rw [hzero]
    exact hp
  have hst := validate_false_state hrej
  refine ⟨Prod.ext hrej hst, ?_, ?_, rfl, rfl⟩
  · rw [hst]
    exact hn
  · intro t1 t2 fuel rnd h0 hnew
    obtain ⟨_, hh⟩ := newNonce_some hash t1 t2 fuel rnd h0 h d.nonce hnew
    rw [hh]
    exact GoMap.set_same _ _ _

/-- Witness of C18: the request of the scenario with counter string "00000000", signed
for that string, on the freshly issued nonce. -/
theorem zero_counter_rejected_witness :
    (sampleRequest "00000000").response
      = expectedResponse sampleHash "ha1" (sampleRequest "00000000") ∧
    validate sampleHash 7 (addNonce 5 6 sampleStore sampleNonce) (sampleRequest "00000000")
      = (false, addNonce 5 6 sampleStore sampleNonce) :=
  ⟨rfl,
    (zero_counter_rejected sampleHash 7 (addNonce 5 6 sampleStore sampleNonce)
      (sampleRequest "00000000") { issued := 5, lastUsed := 6, lastNonceCounter := 0 }
      rfl rfl rfl).1⟩

/-- C19 (as stated, refuted): the store loaded from the one record `alice / x:y / ha1`
has a credential for the request with user `alice:x` and realm `y`, although no record
has that username and that realm; the pairs (alice, x:y) and (alice:x, y) share the
entry, and the request of `alice:x` signed with that entry is accepted. -/
theorem lookup_pair_refuted :
    ∃ h : DigestAuth,
      newDigestAuth (.ok [["alice", "x:y", "ha1"]]) = .ok h ∧
      h.users ("alice:x" ++ ":" ++ "y") = some "ha1" ∧
      h.users ("alice" ++ ":" ++ "x:y") = some "ha1" ∧
      (¬ ∃ r ∈ [["alice", "x:y", "ha1"]], r.getD 0 "" = "alice:x" ∧ r.getD 1 "" = "y") ∧
      (validate sampleHash 7 (addNonce 5 6 h sampleNonce)
        (signedRequest sampleHash "ha1" "alice:x" "y" sampleNonce "GET" "/private" "auth"
          "00000001" "abc123")).1 = true :=
  ⟨{ users := GoMap.empty.set "alice:x:y" "ha1", nonces := GoMap.empty },
    rfl, by decide, by decide, by decide, by decide⟩

/-- C19 (amended): the credential lookup is keyed by the string `username:realm`.  On a
store loaded from records of 3 fields, `validate` finds a credential, and so accepts,
only if the username and realm of some record join to the key of the request; when
neither the user of the request nor a username of the records contains `:`, that
record has exactly the user and realm of the request; and two pairs whose usernames
contain no `:` have the same key only if they are the same pair. -/
theorem lookup_keyed_by_join (records : List (List String)) (h : DigestAuth)
    (hlen : ∀ r ∈ records, r.length = 3)
    (hload : newDigestAuth (.ok records) = .ok h) :
    (∀ d : DigestAuthData, h.users (d.user ++ ":" ++ d.realm) ≠ none →
      ∃ r ∈ records, recordKey r = d.user ++ ":" ++ d.realm) ∧
    (∀ (hash : String → String) (now : Time) (h' : DigestAuth) (d : DigestAuthData),
      h'.users = h.users → (validate hash now h' d).1 = true →
      ∃ r ∈ records, recordKey r = d.user ++ ":" ++ d.realm) ∧
    (∀ d : DigestAuthData, hasColon d.user = false →
      (∀ r ∈ records, hasColon (r.getD 0 "") = false) →
      h.users (d.user ++ ":" ++ d.realm) ≠ none →
      ∃ r ∈ records, r.getD 0 "" = d.user ∧ r.getD 1 "" = d.realm) ∧
    (∀ u1 r1 u2 r2 : String, hasColon u1 = false → hasColon u2 = false →
      u1 ++ ":" ++ r1 = u2 ++ ":" ++ r2 → u1 = u2 ∧ r1 = r2) := by
  obtain ⟨h0, hload0, hnon, husers⟩ :=
    loadRecords_ok records { users := GoMap.empty, nonces := GoMap.empty } hlen
  have hh : h0 = h := by
    have e : (Except.ok h0 : Except String DigestAuth) = .ok h := hload0.symm.trans hload
    exact Except.ok.inj e
  subst hh
  have hkey : ∀ key : String, h0.users key = lastDigestOfKey records key := by
    intro key
    rw [husers key]
    cases lastDigestOfKey records key with
    | some v => rfl
    | none => rfl
  have hfound : ∀ key : String, h0.users key ≠ none → ∃ r ∈ records, recordKey r = key := by
    intro key hne
    rw [hkey key] at hne
    exact (lastDigestWhere_ne_none _ records).mp hne
  refine ⟨fun d hne => hfound _ hne, ?_, ?_, fun u1 r1 u2 r2 h1 h2 he => join_inj u1 r1 u2 r2 h1 h2 he⟩
  · intro hash now h' d husr hacc
    obtain ⟨ha1, info, c, hu, _⟩ := validate_true_inv hacc
    apply hfound
    rw [← husr, hu]
    simp
  · intro d hu hr hne
    rw [hkey, lastDigestOfKey_join records d.user d.realm hu hr] at hne
    exact (lastDigestWhere_ne_none _ records).mp hne

/-- Witness of C19: alice / example.com in the store of the scenario. -/
theorem lookup_keyed_by_join_witness :
    newDigestAuth (.ok [["alice", "example.com", "ha1"]]) = .ok sampleStore ∧
    ∃ r ∈ [["alice", "example.com", "ha1"]],
      r.getD 0 "" = (sampleRequest "00000001").user ∧
      r.getD 1 "" = (sampleRequest "00000001").realm :=
  ⟨rfl,
    (lookup_keyed_by_join [["alice", "example.com", "ha1"]] sampleStore (by decide) rfl).2.2.1
      (sampleRequest "00000001") (by decide) (by decide) (by decide)⟩

/-- C20: the result of `validate` does not depend on time.  For two states with the same
credential map, the same registered tokens and the same lastNonceCounter for every
token, whatever their issued and lastUsed times, and for two readings of the clock,
`validate` returns the same boolean and leaves the same lastNonceCounter for every
token; so a request on a nonce idle for more than 12 hours that `expireNonces` has not
swept is accepted like on a nonce just used. -/
theorem validate_time_independent (hash : String → String) (now1 now2 : Time)
    (h1 h2 : DigestAuth) (d : DigestAuthData)
    (husers : h1.users = h2.users)
    (hcounters : ∀ k : String,
      (h1.nonces k).map (fun i => i.lastNonceCounter)
        = (h2.nonces k).map (fun i => i.lastNonceCounter)) :
    (validate hash now1 h1 d).1 = (validate hash now2 h2 d).1 ∧
    (∀ k : String,
      ((validate hash now1 h1 d).2.nonces k).map (fun i => i.lastNonceCounter)
        = ((validate hash now2 h2 d).2.nonces k).map (fun i => i.lastNonceCounter)) ∧
    (∀ (ha1 : String) (info : NonceInfo) (c : Nat),
      h1.users (d.user ++ ":" ++ d.realm) = some ha1 →
      h1.nonces d.nonce = some info →
      now1 - info.lastUsed > 12 * 3600 * 1000000000 →
      ParseUint d.nc 16 64 = .ok c → c ≠ info.lastNonceCounter →
      d.response = expectedResponse hash ha1 d →
      (validate hash now1 h1 d).1 = true) := by
  have key : ∀ (a b : Time) (g1 g2 : DigestAuth), g1.users = g2.users →
      (∀ k : String, (g1.nonces k).map (fun i => i.lastNonceCounter)
        = (g2.nonces k).map (fun i => i.lastNonceCounter)) →
      (validate hash a g1 d).1 = true →
      (validate hash b g2 d).1 = true ∧
      ∀ k : String,
        ((validate hash a g1 d).2.nonces k).map (fun i => i.lastNonceCounter)
          = ((validate hash b g2 d).2.nonces k).map (fun i => i.lastNonceCounter) := by
    intro a b g1 g2 hus hcs hacc
    obtain ⟨ha1, info, c, hu, hn, hp, hc, hr, he⟩ := validate_true_inv hacc
    have hcn := hcs d.nonce
    rw [hn] at hcn
    cases hn2 : g2.nonces d.nonce with
    | none =>
      rw [hn2] at hcn
      simp at hcn
    | some info2 =>
      rw [hn2] at hcn
      simp only [Option.map_some', Option.some.injEq] at hcn
      have hu2 : g2.users (d.user ++ ":" ++ d.realm) = some ha1 := by rw [← hus]; exact hu
      have hc2 : c ≠ info2.lastNonceCounter := by rw [← hcn]; exact hc
      have he2 := @validate_accept hash b g2 d ha1 info2 c hu2 hn2 hp hc2 hr
      rw [he, he2]
      refine ⟨rfl, ?_⟩
      intro k
      by_cases hk : k = d.nonce
      · subst hk
        simp [GoMap.set_same, usedNonce]
      · simp only [GoMap.set_other _ _ _ _ hk]
        exact hcs k
  refine ⟨?_, ?_, ?_⟩
  · cases hv1 : (validate hash now1 h1 d).1 with
    | true => exact ((key now1 now2 h1 h2 husers hcounters hv1).1).symm
    | false =>
      cases hv2 : (validate hash now2 h2 d).1 with
      | false => rfl
      | true =>
        have h21 := (key now2 now1 h2 h1 husers.symm (fun k => (hcounters k).symm) hv2).1
        rw [hv1] at h21
        cases h21
  · intro k
    cases hv1 : (validate hash now1 h1 d).1 with
    | true => exact (key now1 now2 h1 h2 husers hcounters hv1).2 k
    | false =>
      cases hv2 : (validate hash now2 h2 d).1 with
      | false =>
        rw [validate_false_state hv1, validate_false_state hv2]
        exact hcounters k
      | true =>
        have h21 := (key now2 now1 h2 h1 husers.symm (fun k => (hcounters k).symm) hv2).1
        rw [hv1] at h21
        cases h21
  · intro ha1 info c hu hn _ hp hc hr
    rw [validate_accept hu hn hp hc hr]

/-- Witness of C20: the request of the scenario on a nonce used just before and on the
same nonce left idle for 13 hours. -/
theorem validate_time_independent_witness :
    (validate sampleHash 7 (addNonce 5 6 sampleStore sampleNonce) (sampleRequest "00000001")).1
      = (validate sampleHash 46800000000000 (addNonce 0 0 sampleStore sampleNonce)
          (sampleRequest "00000001")).1 ∧
    (validate sampleHash 46800000000000 (addNonce 0 0 sampleStore sampleNonce)
      (sampleRequest "00000001")).1 = true :=
  ⟨(validate_time_independent sampleHash 7 46800000000000
      (addNonce 5 6 sampleStore sampleNonce) (addNonce 0 0 sampleStore sampleNonce)
      (sampleRequest "00000001") rfl
      (fun k => by by_cases hk : k = sampleNonce <;> simp [addNonce, GoMap.set, hk])).1,
    (validate_time_independent sampleHash 46800000000000 46800000000000
      (addNonce 0 0 sampleStore sampleNonce) (addNonce 0 0 sampleStore sampleNonce)
      (sampleRequest "00000001") rfl (fun _ => rfl)).2.2 "ha1"
      { issued := 0, lastUsed := 0, lastNonceCounter := 0 } 1 (by decide) rfl (by decide)
      rfl (by decide) rfl⟩

/-- C16 (as stated, refuted): with quoted fields the load depends on comment lines and
keeps leading whitespace.  The two-line record whose quoted username is `a:b:c`, a line
feed, `d` is stored under the key of that username and realm `e`; with the line `#z`
added between its two lines the username is another one and that key has no entry.
And the record with the quoted username ` alice` is stored with the leading blank. -/
theorem quoted_source_refuted :
    (∃ h h' : DigestAuth,
      newDigestAuthOfText "\x22a:b:c\nd\x22:e:f\n" = .ok h ∧
      newDigestAuthOfText "\x22a:b:c\n#z\nd\x22:e:f\n" = .ok h' ∧
      h.users ("a:b:c\nd" ++ ":" ++ "e") = some "f" ∧
      h'.users ("a:b:c\nd" ++ ":" ++ "e") = none) ∧
    (∃ h : DigestAuth,
      newDigestAuthOfText "\x22 alice\x22:r:d\n" = .ok h ∧
      h.users (" alice" ++ ":" ++ "r") = some "d" ∧
      h.users ("alice" ++ ":" ++ "r") = none) :=
  ⟨⟨{ users := GoMap.empty.set "a:b:c\nd:e" "f", nonces := GoMap.empty },
      { users := GoMap.empty.set "a:b:c\n#z\nd:e" "f", nonces := GoMap.empty },
      rfl, rfl, by decide, by decide⟩,
    ⟨{ users := GoMap.empty.set " alice:r" "d", nonces := GoMap.empty },
      rfl, by decide, by decide⟩⟩

/-- C16 (amended): credential source format, for fields written without quoting.  On a
source text made of comment lines `#...` and record lines `user:realm:digest` whose
fields hold no double quote, colon or line feed, with whitespace before the fields, each
line ended by a line feed or by carriage return and line feed, the last one possibly by
the end of the text, the reader returns the records of the record lines without that
whitespace.  So two such texts with the same sequence of records load to the same
result: in particular a text with a comment line added anywhere, and a text with
whitespace added before the fields of a record. -/
theorem source_format (src : List SourceLine) (hwf : sourceWellFormed src) :
    csvReadAll (renderSource src) = .ok (src.filterMap SourceLine.fields) ∧
    newDigestAuthOfText (renderSource src) = loadOfRecords (src.filterMap SourceLine.fields) ∧
    (∀ src' : List SourceLine, sourceWellFormed src' →
      src'.filterMap SourceLine.fields = src.filterMap SourceLine.fields →
      newDigestAuthOfText (renderSource src') = newDigestAuthOfText (renderSource src)) ∧
    (∀ (a b : List SourceLine) (text : List Char) (e : LineEnd), src = a ++ b →
      sourceWellFormed (a ++ .comment text e :: b) →
      newDigestAuthOfText (renderSource (a ++ .comment text e :: b))
        = newDigestAuthOfText (renderSource src)) ∧
    (∀ (a b : List SourceLine) (user realm digest pad1 pad2 pad3 : List Char) (e : LineEnd),
      src = a ++ .record [] user [] realm [] digest e :: b →
      padding pad1 → padding pad2 → padding pad3 →
      newDigestAuthOfText (renderSource (a ++ .record pad1 user pad2 realm pad3 digest e :: b))
        = newDigestAuthOfText (renderSource src)) := by
  have hsame : ∀ src' : List SourceLine, sourceWellFormed src' →
      src'.filterMap SourceLine.fields = src.filterMap SourceLine.fields →
      newDigestAuthOfText (renderSource src') = newDigestAuthOfText (renderSource src) := by
    intro src' hwf' hrec
    rw [newDigestAuthOfText_render src' hwf', newDigestAuthOfText_render src hwf, hrec]
  refine ⟨csvReadAll_render src hwf, newDigestAuthOfText_render src hwf, hsame, ?_, ?_⟩
  · intro a b text e hsrc hwf'
    subst hsrc
    apply hsame _ hwf'
    simp [List.filterMap_append, SourceLine.fields]
  · intro a b user realm digest pad1 pad2 pad3 e hsrc hp1 hp2 hp3
    subst hsrc
    have hrecwf : (SourceLine.record [] user [] realm [] digest e).WellFormed := by
      clear hsame
      induction a with
      | nil => exact hwf.1
      | cons x xs ih => exact ih hwf.2.2
    obtain ⟨_, _, _, hu, hr, hd, hhash, hcr⟩ := hrecwf
    have hnew : (SourceLine.record pad1 user pad2 realm pad3 digest e).WellFormed := by
      refine ⟨hp1, hp2, hp3, hu, hr, hd, ?_, hcr⟩
      cases pad1 with
      | nil => exact hhash
      | cons p ps =>
        have hsp := (hp1 p (List.mem_cons_self _ _)).1
        intro hh
        simp only [List.cons_append, List.head?_cons, Option.some.injEq] at hh
        rw [hh] at hsp
        exact absurd hsp (by decide)
    apply hsame _ (sourceWellFormed_replace a b _ _ hwf hnew rfl)
    simp [List.filterMap_append, SourceLine.fields]

/-- Witness of C16: the line of alice with a comment line before it, whitespace before
realm and digest, a carriage return in the first line end and no line end after the
last line, loads like the bare line. -/
theorem source_format_witness :
    csvReadAll "alice:example.com:ha1\n" = .ok [["alice", "example.com", "ha1"]] ∧
    newDigestAuthOfText "# users\r\nalice: example.com:\tha1"
      = newDigestAuthOfText "alice:example.com:ha1\n" :=
  ⟨(source_format [.record [] "alice".data [] "example.com".data [] "ha1".data .lf]
      (by simp [sourceWellFormed, SourceLine.WellFormed, padding, plainField]; decide)).1,
    (source_format [.record [] "alice".data [] "example.com".data [] "ha1".data .lf]
      (by simp [sourceWellFormed, SourceLine.WellFormed, padding, plainField]; decide)).2.2.1
      [.comment " users".data .crlf,
        .record [] "alice".data [' '] "example.com".data ['\t'] "ha1".data .eof]
      (by simp [sourceWellFormed, SourceLine.WellFormed, padding, plainField,
        SourceLine.lineEnd, LineEnd.isNewline]; decide) rfl⟩

end DigestAuthModel
